import Mathlib

/-!
Verification of `tensorflow/contrib/layers/python/layers/feature_column_ops.py`.

The file shallowly embeds the module's data model and operations:

* `FeatureColumn` — the polymorphic feature-column descriptors (real-valued,
  sparse/hashed, bucketized, embedding, crossed).  The concrete column classes
  live in `feature_column.py`, which is outside the sources provided here, so
  their shape and their `insert_transformed_feature` behaviour are modelled
  from the specification.
* `TransState` / `insertTransformedFeature` / `transform` — the memoizing
  `_Transformer`.  Besides the columns-to-tensors mapping, the state carries a
  log (`calls`) of every `insert_transformed_feature` invocation, so that
  "computed at most once" claims are expressible.
* `check_feature_columns`, `input_from_feature_columns`,
  `weighted_sum_from_feature_columns`, `infer_real_valued_columns` — the
  module-level entry points, translated line by line from the source.
  Tensors are represented symbolically as graph-construction nodes.
-/

/-- Element types of tensors (`tf.DType`), reduced to the classification the
module inspects: `is_integer` / `is_floating` / neither. -/
inductive DType where
  | int32
  | int64
  | float32
  | float64
  | strType
  | boolType
deriving DecidableEq, Repr

def DType.isInteger : DType → Bool
  | .int32 => true
  | .int64 => true
  | _ => false

def DType.isFloating : DType → Bool
  | .float32 => true
  | .float64 => true
  | _ => false

/-- A created graph variable.  `trainable = true` models registration in the
`GraphKeys.TRAINABLE_VARIABLES` collection, i.e. being subject to gradient
updates; `collections` models the graph collections the variable is added to. -/
structure Variable where
  name : String
  shape : List Nat
  collections : List String
  trainable : Bool
deriving DecidableEq, Repr

mutual

/-- Modelled from the spec: feature columns are identity-keyed descriptors with
the variants base real-valued, sparse/hashed categorical, bucketized (wraps a
source column and boundaries), embedding (wraps a source column and a
dimension) and crossed (wraps a set of other columns and a hash bucket
size).  The concrete classes live in `feature_column.py`, which is not among
the given sources. -/
inductive FeatureColumn where
  | realValued (name : String) (dimension : Nat) (dtype : DType)
  | sparseHashed (name : String) (hashBucketSize : Nat)
  | bucketized (source : FeatureColumn) (boundaries : List Int)
  | embedding (source : FeatureColumn) (dimension : Nat)
  | crossed (sources : FCList) (hashBucketSize : Nat)
deriving DecidableEq, Repr

/-- A list of feature columns, as a mutual inductive so that structural
recursion and decidable equality are available. -/
inductive FCList where
  | nil
  | cons (c : FeatureColumn) (rest : FCList)
deriving DecidableEq, Repr

end

mutual

/-- Symbolic tensors: raw dense/sparse inputs plus the graph nodes the module
(and the column operations it delegates to) construct. -/
inductive Tensor where
  | dense (shape : List Nat) (dtype : DType)
  | sparseT (shape : List Nat) (dtype : DType)
  | bucketizeOp (src : Tensor) (boundaries : List Int)
  | hashOp (src : Tensor) (buckets : Nat)
  | crossOp (srcs : TList) (buckets : Nat)
  | matmulW (src : Tensor) (w : Variable)
  | addN (ts : TList)
  | biasAdd (src : Tensor) (b : Variable)
  | concatD1 (ts : TList)
deriving DecidableEq, Repr

/-- A list of tensors, as a mutual inductive. -/
inductive TList where
  | nil
  | cons (t : Tensor) (rest : TList)
deriving DecidableEq, Repr

end

def TList.ofList : List Tensor → TList
  | [] => .nil
  | t :: rest => .cons t (TList.ofList rest)

/-- Keys of the shared columns-to-tensors mapping: raw string-named base
features, or feature columns already transformed. -/
inductive FKey where
  | str (s : String)
  | col (c : FeatureColumn)
deriving DecidableEq, Repr

/-- The columns-to-tensors mapping, as an association list. -/
abbrev Dict := List (FKey × Tensor)

def lookupD (k : FKey) : Dict → Option Tensor
  | [] => none
  | (k', v) :: rest => if k' = k then some v else lookupD k rest

def containsD (k : FKey) (m : Dict) : Bool :=
  (lookupD k m).isSome

/-- Modelled from the spec: `insert_transformed_feature` writes new entries
into the mapping and, per the stated invariant, "once a key is present, it is
never overwritten", so insertion leaves an already-present key untouched. -/
def dictAdd (k : FKey) (v : Tensor) (m : Dict) : Dict :=
  if containsD k m then m else m ++ [(k, v)]

mutual

/-- `key` of a feature column (`f.key` in the source).  The key composition of
derived columns is modelled from the spec: every column exposes a unique key
derived from its constituents. -/
def FeatureColumn.key : FeatureColumn → String
  | .realValued n _ _ => n
  | .sparseHashed n _ => n
  | .bucketized src _ => src.key ++ "_bucketized"
  | .embedding src _ => src.key ++ "_embedding"
  | .crossed ss _ => FCList.keyJoin ss

def FCList.keyJoin : FCList → String
  | .nil => ""
  | .cons c .nil => c.key
  | .cons c rest => c.key ++ "_X_" ++ FCList.keyJoin rest

end

/-- `name` of a feature column (used by the unsupported-column error).
Modelled from the spec as coinciding with the unique key. -/
def FeatureColumn.name (c : FeatureColumn) : String :=
  c.key

mutual

/-- Whether every raw base feature the column (transitively) depends on is
present as a string key of the mapping.  Base columns depend on their own raw
field; derived columns depend on their sources' bases. -/
def FeatureColumn.basesPresent : FeatureColumn → Dict → Bool
  | .realValued n _ _, m => containsD (.str n) m
  | .sparseHashed n _, m => containsD (.str n) m
  | .bucketized src _, m => src.basesPresent m
  | .embedding src _, m => src.basesPresent m
  | .crossed ss _, m => FCList.basesPresentL ss m

def FCList.basesPresentL : FCList → Dict → Bool
  | .nil, _ => true
  | .cons c rest, m => c.basesPresent m && FCList.basesPresentL rest m

end

mutual

/-- Column dependency depth: base columns have depth 0, derived columns sit
strictly above their sources.  (The spec: recursion depth is bounded by the
column dependency depth, which is acyclic by construction.) -/
def FeatureColumn.depth : FeatureColumn → Nat
  | .realValued _ _ _ => 0
  | .sparseHashed _ _ => 0
  | .bucketized src _ => src.depth + 1
  | .embedding src _ => src.depth + 1
  | .crossed ss _ => FCList.depthMax ss + 1

def FCList.depthMax : FCList → Nat
  | .nil => 0
  | .cons c rest => max c.depth (FCList.depthMax rest)

end

instance {e a : Type} [DecidableEq e] [DecidableEq a] : DecidableEq (Except e a) := fun x y =>
  match x, y with
  | .ok u, .ok v =>
    if h : u = v then .isTrue (by rw [h]) else .isFalse (fun hc => h (Except.ok.inj hc))
  | .error u, .error v =>
    if h : u = v then .isTrue (by rw [h]) else .isFalse (fun hc => h (Except.error.inj hc))
  | .ok _, .error _ => .isFalse (fun hc => Except.noConfusion hc)
  | .error _, .ok _ => .isFalse (fun hc => Except.noConfusion hc)

/-- State of a `_Transformer`: the shared mutable columns-to-tensors mapping,
plus a log of every `insert_transformed_feature` invocation made so far (the
log is instrumentation for the statements; it does not influence results). -/
structure TransState where
  map : Dict
  calls : List FeatureColumn
deriving DecidableEq, Repr

def logCall (c : FeatureColumn) (s : TransState) : TransState :=
  { s with calls := s.calls ++ [c] }

def addEntry (k : FKey) (v : Tensor) (s : TransState) : TransState :=
  { s with map := dictAdd k v s.map }

def lookupCols : FCList → Dict → Option TList
  | .nil, _ => some .nil
  | .cons c rest, m =>
    match lookupD (.col c) m, lookupCols rest m with
    | some v, some vs => some (.cons v vs)
    | _, _ => none

mutual

/-- Modelled from the spec: `insert_transformed_feature` of the concrete
column classes (in `feature_column.py`, not among the given sources).  Each
column writes one new entry for itself — a real-valued column aliases its raw
tensor, a sparse column hashes it, a bucketized column bucketizes its source's
tensor, an embedding aliases its source's tensor — and a derived column first
transforms the dependency columns it needs, skipping any dependency already
present in the mapping ("possibly for dependency columns it transforms
internally, e.g. a cross transforming its inputs").  When a required input is
missing no entry for the column is written, which the caller's
unsupported-column guard then reports.  Every invocation is appended to the
call log. -/
def insertTransformedFeature : FeatureColumn → TransState → TransState
  | .realValued n dim dt, s =>
    let s1 := logCall (.realValued n dim dt) s
    match lookupD (.str n) s1.map with
    | some v => addEntry (.col (.realValued n dim dt)) v s1
    | none => s1
  | .sparseHashed n b, s =>
    let s1 := logCall (.sparseHashed n b) s
    match lookupD (.str n) s1.map with
    | some v => addEntry (.col (.sparseHashed n b)) (.hashOp v b) s1
    | none => s1
  | .bucketized src bnds, s =>
    let s1 := logCall (.bucketized src bnds) s
    let s2 := if containsD (.col src) s1.map then s1 else insertTransformedFeature src s1
    match lookupD (.col src) s2.map with
    | some v => addEntry (.col (.bucketized src bnds)) (.bucketizeOp v bnds) s2
    | none => s2
  | .embedding src dim, s =>
    let s1 := logCall (.embedding src dim) s
    let s2 := if containsD (.col src) s1.map then s1 else insertTransformedFeature src s1
    match lookupD (.col src) s2.map with
    | some v => addEntry (.col (.embedding src dim)) v s2
    | none => s2
  | .crossed ss b, s =>
    let s2 := ensureAll ss (logCall (.crossed ss b) s)
    match lookupCols ss s2.map with
    | some ts => addEntry (.col (.crossed ss b)) (.crossOp ts b) s2
    | none => s2

/-- Transform each dependency column in turn, skipping the ones whose entry is
already present. -/
def ensureAll : FCList → TransState → TransState
  | .nil, s => s
  | .cons c rest, s =>
    ensureAll rest (if containsD (.col c) s.map then s else insertTransformedFeature c s)

end

/-- `if c not in columns_to_tensors: c.insert_transformed_feature(...)` — the
guarded dependency transform a derived column performs. -/
def ensureCol (c : FeatureColumn) (s : TransState) : TransState :=
  if containsD (.col c) s.map then s else insertTransformedFeature c s

theorem ensureAll_cons (c : FeatureColumn) (rest : FCList) (s : TransState) :
    ensureAll (.cons c rest) s = ensureAll rest (ensureCol c s) := rfl

/-- `_Transformer.transform` (lines 341-365 of the source): return the entry
for `feature_column` if it is already a key of the mapping; otherwise delegate
to the column's `insert_transformed_feature` and afterwards either return the
now-present entry or raise the "not supported" `ValueError`.  The returned
state is the transformer's state after the call (in the source the mapping is
mutated in place, so the mutations survive a raised error). -/
def transform (c : FeatureColumn) (s : TransState) : Except String Tensor × TransState :=
  match lookupD (.col c) s.map with
  | some v => (.ok v, s)
  | none =>
    let s' := insertTransformedFeature c s
    match lookupD (.col c) s'.map with
    | some v => (.ok v, s')
    | none => (.error ("Column " ++ c.name ++ " is not supported."), s')

/-- A sequence of `transform` calls on the same `_Transformer`, keeping only
the evolving state. -/
def runTransforms (cs : List FeatureColumn) (s : TransState) : TransState :=
  cs.foldl (fun acc c => (transform c acc).2) s

/-- `check_feature_columns`'s loop, with the set of keys seen so far. -/
def checkFeatureColumnsAux (seen : List String) : List FeatureColumn → Except String Unit
  | [] => .ok ()
  | f :: rest =>
    if f.key ∈ seen then .error ("Duplicate feature column key found: " ++ f.key)
    else checkFeatureColumnsAux (f.key :: seen) rest

/-- `check_feature_columns` (lines 283-297): walk the columns in the given
order and raise on the first repeated key. -/
def check_feature_columns (cols : List FeatureColumn) : Except String Unit :=
  checkFeatureColumnsAux [] cols

/-- The `GraphKeys.VARIABLES` collection name. -/
def graphKeysVariables : String := "variables"

/-- Output width of a column's dense input-layer slice.  Modelled from the
spec: every column variant exposes an individual output width — the stated
dimension for real-valued and embedding columns, one-hot widths for
categorical ones, and source width times the number of buckets for a
bucketized column. -/
def FeatureColumn.dnnOutputWidth : FeatureColumn → Nat
  | .realValued _ dim _ => dim
  | .sparseHashed _ b => b
  | .bucketized src bnds => src.dnnOutputWidth * (bnds.length + 1)
  | .embedding _ dim => dim
  | .crossed _ b => b

mutual

/-- Leading (batch) dimension of a tensor's shape, following the raw tensor a
derived tensor was built from. -/
def Tensor.batchOf : Tensor → Nat
  | .dense s _ => s.headD 0
  | .sparseT s _ => s.headD 0
  | .bucketizeOp t _ => t.batchOf
  | .hashOp t _ => t.batchOf
  | .crossOp ts _ => TList.batchOfL ts
  | .matmulW t _ => t.batchOf
  | .addN ts => TList.batchOfL ts
  | .biasAdd t _ => t.batchOf
  | .concatD1 ts => TList.batchOfL ts

def TList.batchOfL : TList → Nat
  | .nil => 0
  | .cons t _ => t.batchOf

end

mutual

/-- Width of a tensor's feature axis (axis 1): the second shape entry of a
dense tensor, and the sum of the parts for an axis-1 concatenation. -/
def Tensor.featureWidth : Tensor → Nat
  | .dense s _ => s.getD 1 0
  | .sparseT s _ => s.getD 1 0
  | .concatD1 ts => TList.widthSum ts
  | _ => 0

def TList.widthSum : TList → Nat
  | .nil => 0
  | .cons t rest => t.featureWidth + TList.widthSum rest

end

/-- Modelled from the spec: `column.to_dnn_input_layer(transformed_tensor,
weight_collections, trainable)` renders the column as a dense batch-major
slice of the column's output width, creating weight variables (an embedding's
lookup table) registered in the caller's collections and marked trainable or
frozen per the flag.  Returns the slice and the variables it created. -/
def to_dnn_input_layer (c : FeatureColumn) (t : Tensor) (wc : List String) (tr : Bool) :
    Tensor × List Variable :=
  match c with
  | .embedding src dim =>
    let w : Variable :=
      ⟨(FeatureColumn.embedding src dim).key ++ "/weights", [dim], wc, tr⟩
    (.dense [t.batchOf, (FeatureColumn.embedding src dim).dnnOutputWidth] .float32, [w])
  | c => (.dense [t.batchOf, c.dnnOutputWidth] .float32, [])

/-- The weight variable `column.to_weighted_sum` creates for a column. -/
def linearWeightVar (c : FeatureColumn) (numOutputs : Nat) (wc : List String) (tr : Bool) :
    Variable :=
  ⟨c.key ++ "/weight", [c.dnnOutputWidth, numOutputs], wc, tr⟩

/-- Modelled from the spec: `column.to_weighted_sum(transformed_tensor,
num_outputs, weight_collections, trainable)` creates the column's weight
variable (registered in the caller's collections, trainable per the flag) and
returns the column's weighted contribution together with that variable. -/
def to_weighted_sum (c : FeatureColumn) (t : Tensor) (numOutputs : Nat) (wc : List String)
    (tr : Bool) : Tensor × Variable :=
  let w := linearWeightVar c numOutputs wc tr
  (.matmulW t w, w)

def keyLE (a b : FeatureColumn) : Prop := a.key ≤ b.key

instance : DecidableRel keyLE := fun a b => inferInstanceAs (Decidable (a.key ≤ b.key))

instance : IsTotal FeatureColumn keyLE := ⟨fun a b => le_total a.key b.key⟩

instance : IsTrans FeatureColumn keyLE := ⟨fun _ _ _ h₁ h₂ => le_trans h₁ h₂⟩

def keyLT (a b : FeatureColumn) : Prop := a.key < b.key

instance : IsAntisymm FeatureColumn keyLT :=
  ⟨fun _ _ h₁ h₂ => absurd (lt_trans h₁ h₂) (lt_irrefl _)⟩

/-- `sorted(set(feature_columns), key=lambda x: x.key)` (lines 98, 172, 238):
duplicates are collapsed and the distinct columns are enumerated in ascending
key order. -/
def sortedColumns (cols : List FeatureColumn) : List FeatureColumn :=
  cols.dedup.insertionSort keyLE

/-- Lines 94-96: when `weight_collections` is non-empty it is extended with
`GraphKeys.VARIABLES` (via `set`, so without duplicates). -/
def augmentCollections (wc : List String) : List String :=
  if wc = [] then wc else (wc ++ [graphKeysVariables]).dedup

/-- The per-column loop of `input_from_feature_columns` (lines 98-101):
transform each column and render its dense slice, collecting slices and
created variables; a transformation error propagates. -/
def inputFold (wc : List String) (tr : Bool) :
    List FeatureColumn → TransState → Except String (List Tensor × List Variable × TransState)
  | [], s => .ok ([], [], s)
  | c :: rest, s =>
    match transform c s with
    | (.ok t, s') =>
      let (slice, vars) := to_dnn_input_layer c t wc tr
      match inputFold wc tr rest s' with
      | .ok (slices, vars', s'') => .ok (slice :: slices, vars ++ vars', s'')
      | .error e => .error e
    | (.error e, _) => .error e

/-- `input_from_feature_columns` (lines 32-102): validate the columns, walk
the deduplicated columns in ascending key order transforming each and
rendering its dense slice, and concatenate the slices along axis 1.  Returns
the output tensor and the variables created along the way. -/
def input_from_feature_columns (σ : Dict) (cols : List FeatureColumn) (wc : List String)
    (tr : Bool) : Except String (Tensor × List Variable) :=
  match check_feature_columns cols with
  | .error e => .error e
  | .ok _ =>
    let wc' := augmentCollections wc
    match inputFold wc' tr (sortedColumns cols) ⟨σ, []⟩ with
    | .error e => .error e
    | .ok (slices, vars, _) => .ok (.concatD1 (TList.ofList slices), vars)

/-- Modelled from the spec: `fc._add_variable_collection(weight_collections)`
(in `feature_column.py`, not among the given sources) extends a non-empty
collection list with `GraphKeys.VARIABLES`. -/
def addVariableCollection (wc : List String) : List String :=
  if wc = [] then wc else (wc ++ [graphKeysVariables]).dedup

/-- The bias variable of `weighted_sum_from_feature_columns` (lines 183-186):
`variables.Variable(array_ops.zeros([num_outputs]), collections=
fc._add_variable_collection(weight_collections), name='bias_weight')`.  The
source passes no `trainable` argument, so the `tf.Variable` default
`trainable=True` applies and the bias is registered as trainable regardless of
the builder's `trainable` flag. -/
def biasVariable (numOutputs : Nat) (wc : List String) : Variable :=
  ⟨"bias_weight", [numOutputs], addVariableCollection wc, true⟩

/-- The per-column loop of `weighted_sum_from_feature_columns` (lines
172-180): transform each column, take its weighted contribution and weight
variable, and record the column-to-variable association. -/
def wsFold (numOutputs : Nat) (wc : List String) (tr : Bool) :
    List FeatureColumn → TransState →
    Except String (List Tensor × List (FeatureColumn × Variable) × TransState)
  | [], s => .ok ([], [], s)
  | c :: rest, s =>
    match transform c s with
    | (.ok t, s') =>
      let (pred, w) := to_weighted_sum c t numOutputs wc tr
      match wsFold numOutputs wc tr rest s' with
      | .ok (preds, cvs, s'') => .ok (pred :: preds, (c, w) :: cvs, s'')
      | .error e => .error e
    | (.error e, _) => .error e

/-- `weighted_sum_from_feature_columns` (lines 105-190): validate the columns,
walk the deduplicated columns in ascending key order accumulating their
weighted contributions and weight variables, sum the contributions with
`add_n`, add the bias, and return the predictions, the column-to-variable
mapping and the bias variable. -/
def weighted_sum_from_feature_columns (σ : Dict) (cols : List FeatureColumn)
    (numOutputs : Nat) (wc : List String) (tr : Bool) :
    Except String (Tensor × List (FeatureColumn × Variable) × Variable) :=
  match check_feature_columns cols with
  | .error e => .error e
  | .ok _ =>
    match wsFold numOutputs wc tr (sortedColumns cols) ⟨σ, []⟩ with
    | .error e => .error e
    | .ok (preds, colVars, _) =>
      let bias := biasVariable numOutputs wc
      .ok (.biasAdd (.addN (TList.ofList preds)) bias, colVars, bias)

/-- `isinstance(tensor, ops.SparseTensor)`: whether a tensor value is a
`SparseTensor` (hashing and crossing produce sparse tensors). -/
def Tensor.isSparseTensor : Tensor → Bool
  | .sparseT _ _ => true
  | .hashOp _ _ => true
  | .crossOp _ _ => true
  | _ => false

/-- `tensor.dtype` of the tensor values in the model (derived ids are
integral). -/
def Tensor.dtypeOf : Tensor → DType
  | .dense _ dt => dt
  | .sparseT _ dt => dt
  | .bucketizeOp _ _ => .int32
  | .hashOp _ _ => .int64
  | .crossOp _ _ => .int64
  | _ => .float32

/-- `tensor.get_shape().as_list()` for the raw tensors auto-detection is run
on. -/
def Tensor.getShapeAsList : Tensor → List Nat
  | .dense s _ => s
  | .sparseT s _ => s
  | _ => []

/-- `_infer_real_valued_column_for_tensor` (lines 252-269): reject sparse
tensors and non-numeric element types; otherwise build a real-valued column
whose dimension is the product of all shape dimensions beyond the first
(batch) axis, keeping the tensor's dtype. -/
def inferRealValuedColumnForTensor (name : String) (t : Tensor) :
    Except String FeatureColumn :=
  if t.isSparseTensor then
    .error ("SparseTensor is not supported for auto detection. Please define corresponding FeatureColumn for tensor " ++ name ++ ".")
  else if !(t.dtypeOf.isInteger || t.dtypeOf.isFloating) then
    .error ("Non integer or non floating types are not supported for auto detection. Please define corresponding FeatureColumn for tensor " ++ name ++ ".")
  else
    .ok (.realValued name (t.getShapeAsList.drop 1).prod t.dtypeOf)

/-- The argument of `infer_real_valued_columns`: a single tensor, or a mapping
of named tensors. -/
inductive Features where
  | single (t : Tensor)
  | table (items : List (String × Tensor))

/-- The loop of `infer_real_valued_columns` over a mapping's items: one
inferred column per entry, the first failure propagating. -/
def inferTableLoop : List (String × Tensor) → Except String (List FeatureColumn)
  | [] => .ok []
  | kv :: rest =>
    match inferRealValuedColumnForTensor kv.1 kv.2 with
    | .ok c =>
      match inferTableLoop rest with
      | .ok cs => .ok (c :: cs)
      | .error e => .error e
    | .error e => .error e

/-- `infer_real_valued_columns` (lines 272-280): a bare tensor gets one
inferred column under the empty name; a mapping gets one inferred column per
entry, any failure propagating. -/
def infer_real_valued_columns : Features → Except String (List FeatureColumn)
  | .single t =>
    match inferRealValuedColumnForTensor "" t with
    | .ok c => .ok [c]
    | .error e => .error e
  | .table items => inferTableLoop items

theorem lookupD_append_left (k : FKey) (m₁ m₂ : Dict) (v : Tensor)
    (h : lookupD k m₁ = some v) : lookupD k (m₁ ++ m₂) = some v := by
  induction m₁ with
  | nil => simp [lookupD] at h
  | cons p rest ih =>
    obtain ⟨k', v'⟩ := p
    simp only [List.cons_append, lookupD] at h ⊢
    by_cases hc : k' = k
    · simpa [hc] using h
    · rw [if_neg hc] at h ⊢
      exact ih h

theorem lookupD_append_of_none (k : FKey) (m₁ m₂ : Dict)
    (h : lookupD k m₁ = none) : lookupD k (m₁ ++ m₂) = lookupD k m₂ := by
  induction m₁ with
  | nil => rfl
  | cons p rest ih =>
    obtain ⟨k', v'⟩ := p
    simp only [List.cons_append, lookupD] at h ⊢
    by_cases hc : k' = k
    · simp [hc] at h
    · rw [if_neg hc] at h ⊢
      exact ih h

theorem lookupD_dictAdd_of_some (k k' : FKey) (v v' : Tensor) (m : Dict)
    (h : lookupD k m = some v) : lookupD k (dictAdd k' v' m) = some v := by
  unfold dictAdd
  split
  · exact h
  · exact lookupD_append_left k m [(k', v')] v h

theorem containsD_dictAdd_self (k : FKey) (v : Tensor) (m : Dict) :
    containsD k (dictAdd k v m) = true := by
  unfold dictAdd
  split
  · assumption
  · unfold containsD at *
    rcases hk : lookupD k m with _ | w
    · rw [lookupD_append_of_none k m [(k, v)] hk]
      simp [lookupD]
    · rw [lookupD_append_left k m [(k, v)] w hk]
      rfl

theorem containsD_dictAdd_of_contains (k k' : FKey) (v' : Tensor) (m : Dict)
    (h : containsD k m = true) : containsD k (dictAdd k' v' m) = true := by
  unfold containsD at h ⊢
  rcases hk : lookupD k m with _ | w
  · rw [hk] at h; simp at h
  · rw [lookupD_dictAdd_of_some k k' w v' m hk]
    rfl

theorem insertTF_realValued_eq (n : String) (dim : Nat) (dt : DType) (s : TransState) :
    insertTransformedFeature (.realValued n dim dt) s =
      match lookupD (.str n) s.map with
      | some v => addEntry (.col (.realValued n dim dt)) v (logCall (.realValued n dim dt) s)
      | none => logCall (.realValued n dim dt) s := rfl

theorem insertTF_realValued_of_some (n : String) (dim : Nat) (dt : DType) (s : TransState)
    (w : Tensor) (hw : lookupD (.str n) s.map = some w) :
    insertTransformedFeature (.realValued n dim dt) s =
      addEntry (.col (.realValued n dim dt)) w (logCall (.realValued n dim dt) s) := by
  rw [insertTF_realValued_eq, hw]

theorem insertTF_realValued_of_none (n : String) (dim : Nat) (dt : DType) (s : TransState)
    (hw : lookupD (.str n) s.map = none) :
    insertTransformedFeature (.realValued n dim dt) s = logCall (.realValued n dim dt) s := by
  rw [insertTF_realValued_eq, hw]

theorem insertTF_sparseHashed_eq (n : String) (b : Nat) (s : TransState) :
    insertTransformedFeature (.sparseHashed n b) s =
      match lookupD (.str n) s.map with
      | some v => addEntry (.col (.sparseHashed n b)) (.hashOp v b) (logCall (.sparseHashed n b) s)
      | none => logCall (.sparseHashed n b) s := rfl

theorem insertTF_sparseHashed_of_some (n : String) (b : Nat) (s : TransState)
    (w : Tensor) (hw : lookupD (.str n) s.map = some w) :
    insertTransformedFeature (.sparseHashed n b) s =
      addEntry (.col (.sparseHashed n b)) (.hashOp w b) (logCall (.sparseHashed n b) s) := by
  rw [insertTF_sparseHashed_eq, hw]

theorem insertTF_sparseHashed_of_none (n : String) (b : Nat) (s : TransState)
    (hw : lookupD (.str n) s.map = none) :
    insertTransformedFeature (.sparseHashed n b) s = logCall (.sparseHashed n b) s := by
  rw [insertTF_sparseHashed_eq, hw]

theorem insertTF_bucketized_eq (src : FeatureColumn) (bnds : List Int) (s : TransState) :
    insertTransformedFeature (.bucketized src bnds) s =
      match lookupD (.col src) (ensureCol src (logCall (.bucketized src bnds) s)).map with
      | some v => addEntry (.col (.bucketized src bnds)) (.bucketizeOp v bnds)
          (ensureCol src (logCall (.bucketized src bnds) s))
      | none => ensureCol src (logCall (.bucketized src bnds) s) := rfl

theorem insertTF_bucketized_of_some (src : FeatureColumn) (bnds : List Int) (s : TransState)
    (w : Tensor)
    (hw : lookupD (.col src) (ensureCol src (logCall (.bucketized src bnds) s)).map = some w) :
    insertTransformedFeature (.bucketized src bnds) s =
      addEntry (.col (.bucketized src bnds)) (.bucketizeOp w bnds)
        (ensureCol src (logCall (.bucketized src bnds) s)) := by
  rw [insertTF_bucketized_eq, hw]

theorem insertTF_bucketized_of_none (src : FeatureColumn) (bnds : List Int) (s : TransState)
    (hw : lookupD (.col src) (ensureCol src (logCall (.bucketized src bnds) s)).map = none) :
    insertTransformedFeature (.bucketized src bnds) s =
      ensureCol src (logCall (.bucketized src bnds) s) := by
  rw [insertTF_bucketized_eq, hw]

theorem insertTF_embedding_eq (src : FeatureColumn) (dim : Nat) (s : TransState) :
    insertTransformedFeature (.embedding src dim) s =
      match lookupD (.col src) (ensureCol src (logCall (.embedding src dim) s)).map with
      | some v => addEntry (.col (.embedding src dim)) v
          (ensureCol src (logCall (.embedding src dim) s))
      | none => ensureCol src (logCall (.embedding src dim) s) := rfl

theorem insertTF_embedding_of_some (src : FeatureColumn) (dim : Nat) (s : TransState)
    (w : Tensor)
    (hw : lookupD (.col src) (ensureCol src (logCall (.embedding src dim) s)).map = some w) :
    insertTransformedFeature (.embedding src dim) s =
      addEntry (.col (.embedding src dim)) w (ensureCol src (logCall (.embedding src dim) s)) := by
  rw [insertTF_embedding_eq, hw]

theorem insertTF_embedding_of_none (src : FeatureColumn) (dim : Nat) (s : TransState)
    (hw : lookupD (.col src) (ensureCol src (logCall (.embedding src dim) s)).map = none) :
    insertTransformedFeature (.embedding src dim) s =
      ensureCol src (logCall (.embedding src dim) s) := by
  rw [insertTF_embedding_eq, hw]

theorem insertTF_crossed_eq (ss : FCList) (b : Nat) (s : TransState) :
    insertTransformedFeature (.crossed ss b) s =
      match lookupCols ss (ensureAll ss (logCall (.crossed ss b) s)).map with
      | some ts => addEntry (.col (.crossed ss b)) (.crossOp ts b)
          (ensureAll ss (logCall (.crossed ss b) s))
      | none => ensureAll ss (logCall (.crossed ss b) s) := rfl

theorem insertTF_crossed_of_some (ss : FCList) (b : Nat) (s : TransState) (ts : TList)
    (hw : lookupCols ss (ensureAll ss (logCall (.crossed ss b) s)).map = some ts) :
    insertTransformedFeature (.crossed ss b) s =
      addEntry (.col (.crossed ss b)) (.crossOp ts b) (ensureAll ss (logCall (.crossed ss b) s)) := by
  rw [insertTF_crossed_eq, hw]

theorem insertTF_crossed_of_none (ss : FCList) (b : Nat) (s : TransState)
    (hw : lookupCols ss (ensureAll ss (logCall (.crossed ss b) s)).map = none) :
    insertTransformedFeature (.crossed ss b) s = ensureAll ss (logCall (.crossed ss b) s) := by
  rw [insertTF_crossed_eq, hw]

/-- Entries of the columns-to-tensors mapping survive any
`insert_transformed_feature` call with their value intact. -/
theorem insertTF_mono :
    ∀ (d : FeatureColumn) (s : TransState), ∀ (k : FKey) (v : Tensor),
      lookupD k s.map = some v → lookupD k (insertTransformedFeature d s).map = some v := by
  refine insertTransformedFeature.induct
    (fun d s => ∀ k v, lookupD k s.map = some v →
      lookupD k (insertTransformedFeature d s).map = some v)
    (fun l s => ∀ k v, lookupD k s.map = some v → lookupD k (ensureAll l s).map = some v)
    ?_ ?_ ?_ ?_ ?_ ?_ ?_ ?_ ?_ ?_ ?_ ?_
  · intro n dim dt s s1 w hw k v h
    have hw' : lookupD (.str n) s.map = some w := hw
    rw [insertTF_realValued_of_some n dim dt s w hw']
    simp only [addEntry, logCall]
    exact lookupD_dictAdd_of_some _ _ v w _ h
  · intro n dim dt s s1 hw k v h
    have hw' : lookupD (.str n) s.map = none := hw
    rw [insertTF_realValued_of_none n dim dt s hw']
    exact h
  · intro n b s s1 w hw k v h
    have hw' : lookupD (.str n) s.map = some w := hw
    rw [insertTF_sparseHashed_of_some n b s w hw']
    simp only [addEntry, logCall]
    exact lookupD_dictAdd_of_some _ _ v _ _ h
  · intro n b s s1 hw k v h
    have hw' : lookupD (.str n) s.map = none := hw
    rw [insertTF_sparseHashed_of_none n b s hw']
    exact h
  · intro src bnds s s1 s2 w hw ih k v h
    have hw' : lookupD (.col src) (ensureCol src (logCall (.bucketized src bnds) s)).map
        = some w := hw
    rw [insertTF_bucketized_of_some src bnds s w hw']
    simp only [addEntry]
    apply lookupD_dictAdd_of_some
    simp only [ensureCol]
    split
    · exact h
    · exact ih k v h
  · intro src bnds s s1 s2 hw ih k v h
    have hw' : lookupD (.col src) (ensureCol src (logCall (.bucketized src bnds) s)).map
        = none := hw
    rw [insertTF_bucketized_of_none src bnds s hw']
    simp only [ensureCol]
    split
    · exact h
    · exact ih k v h
  · intro src dim s s1 s2 w hw ih k v h
    have hw' : lookupD (.col src) (ensureCol src (logCall (.embedding src dim) s)).map
        = some w := hw
    rw [insertTF_embedding_of_some src dim s w hw']
    simp only [addEntry]
    apply lookupD_dictAdd_of_some
    simp only [ensureCol]
    split
    · exact h
    · exact ih k v h
  · intro src dim s s1 s2 hw ih k v h
    have hw' : lookupD (.col src) (ensureCol src (logCall (.embedding src dim) s)).map
        = none := hw
    rw [insertTF_embedding_of_none src dim s hw']
    simp only [ensureCol]
    split
    · exact h
    · exact ih k v h
  · intro ss b s s2 ts hts ih k v h
    have hts' : lookupCols ss (ensureAll ss (logCall (.crossed ss b) s)).map = some ts := hts
    rw [insertTF_crossed_of_some ss b s ts hts']
    simp only [addEntry]
    exact lookupD_dictAdd_of_some _ _ v _ _ (ih k v h)
  · intro ss b s s2 hts ih k v h
    have hts' : lookupCols ss (ensureAll ss (logCall (.crossed ss b) s)).map = none := hts
    rw [insertTF_crossed_of_none ss b s hts']
    exact ih k v h
  · intro s k v h
    exact h
  · intro c rest s ih1 ih2 k v h
    have ih2' : ∀ k v, lookupD k (ensureCol c s).map = some v →
        lookupD k (ensureAll rest (ensureCol c s)).map = some v := ih2
    rw [ensureAll_cons]
    apply ih2'
    simp only [ensureCol]
    split
    · exact h
    · exact ih1 k v h

/-- `ensureCol` version of `insertTF_mono`. -/
theorem ensureCol_mono (c : FeatureColumn) (s : TransState) (k : FKey) (v : Tensor)
    (h : lookupD k s.map = some v) : lookupD k (ensureCol c s).map = some v := by
  simp only [ensureCol]
  split
  · exact h
  · exact insertTF_mono c s k v h

/-- `ensureAll` version of `insertTF_mono`. -/
theorem ensureAll_mono : ∀ (l : FCList) (s : TransState) (k : FKey) (v : Tensor),
    lookupD k s.map = some v → lookupD k (ensureAll l s).map = some v
  | .nil, _, _, _, h => h
  | .cons c rest, s, k, v, h => by
    rw [ensureAll_cons]
    exact ensureAll_mono rest (ensureCol c s) k v (ensureCol_mono c s k v h)

theorem containsD_iff_lookup (k : FKey) (m : Dict) :
    containsD k m = true ↔ ∃ v, lookupD k m = some v := by
  unfold containsD
  exact Option.isSome_iff_exists

theorem containsD_insertTF_mono (d : FeatureColumn) (s : TransState) (k : FKey)
    (h : containsD k s.map = true) :
    containsD k (insertTransformedFeature d s).map = true := by
  obtain ⟨v, hv⟩ := (containsD_iff_lookup k s.map).mp h
  exact (containsD_iff_lookup k _).mpr ⟨v, insertTF_mono d s k v hv⟩

theorem containsD_ensureCol_mono (c : FeatureColumn) (s : TransState) (k : FKey)
    (h : containsD k s.map = true) : containsD k (ensureCol c s).map = true := by
  obtain ⟨v, hv⟩ := (containsD_iff_lookup k s.map).mp h
  exact (containsD_iff_lookup k _).mpr ⟨v, ensureCol_mono c s k v hv⟩

theorem containsD_ensureAll_mono (l : FCList) (s : TransState) (k : FKey)
    (h : containsD k s.map = true) : containsD k (ensureAll l s).map = true := by
  obtain ⟨v, hv⟩ := (containsD_iff_lookup k s.map).mp h
  exact (containsD_iff_lookup k _).mpr ⟨v, ensureAll_mono l s k v hv⟩

/-- `basesPresent` only inspects key membership, so it transfers along any
membership-preserving map change. -/
theorem basesPresent_mono :
    ∀ (c : FeatureColumn) (m : Dict), ∀ m' : Dict,
      (∀ k, containsD k m = true → containsD k m' = true) →
      c.basesPresent m = true → c.basesPresent m' = true := by
  refine FeatureColumn.basesPresent.induct
    (fun c m => ∀ m', (∀ k, containsD k m = true → containsD k m' = true) →
      c.basesPresent m = true → c.basesPresent m' = true)
    (fun l m => ∀ m', (∀ k, containsD k m = true → containsD k m' = true) →
      FCList.basesPresentL l m = true → FCList.basesPresentL l m' = true)
    ?_ ?_ ?_ ?_ ?_ ?_ ?_
  · intro n dim dt m m' hmono hb
    simp only [FeatureColumn.basesPresent] at hb ⊢
    exact hmono _ hb
  · intro n b m m' hmono hb
    simp only [FeatureColumn.basesPresent] at hb ⊢
    exact hmono _ hb
  · intro src bnds m ih m' hmono hb
    simp only [FeatureColumn.basesPresent] at hb ⊢
    exact ih m' hmono hb
  · intro src dim m ih m' hmono hb
    simp only [FeatureColumn.basesPresent] at hb ⊢
    exact ih m' hmono hb
  · intro ss b m ih m' hmono hb
    simp only [FeatureColumn.basesPresent] at hb ⊢
    exact ih m' hmono hb
  · intro m m' hmono hb
    simp only [FCList.basesPresentL]
  · intro c rest m ih1 ih2 m' hmono hb
    simp only [FCList.basesPresentL, Bool.and_eq_true] at hb ⊢
    exact ⟨ih1 m' hmono hb.1, ih2 m' hmono hb.2⟩

/-- `FCList` version of `basesPresent_mono`. -/
theorem basesPresentL_mono : ∀ (l : FCList) (m m' : Dict),
    (∀ k, containsD k m = true → containsD k m' = true) →
    FCList.basesPresentL l m = true → FCList.basesPresentL l m' = true
  | .nil, _, _, _, _ => by simp only [FCList.basesPresentL]
  | .cons c rest, m, m', hmono, hb => by
    simp only [FCList.basesPresentL, Bool.and_eq_true] at hb ⊢
    exact ⟨basesPresent_mono c m m' hmono hb.1, basesPresentL_mono rest m m' hmono hb.2⟩

theorem lookupD_dictAdd_of_ne (k k' : FKey) (v' : Tensor) (m : Dict) (hne : k' ≠ k) :
    lookupD k (dictAdd k' v' m) = lookupD k m := by
  unfold dictAdd
  split
  · rfl
  · rcases hk : lookupD k m with _ | w
    · rw [lookupD_append_of_none k m [(k', v')] hk]
      simp [lookupD, hne]
    · exact lookupD_append_left k m [(k', v')] w hk

theorem containsD_dictAdd_of_ne (k k' : FKey) (v' : Tensor) (m : Dict) (hne : k' ≠ k) :
    containsD k (dictAdd k' v' m) = containsD k m := by
  unfold containsD
  rw [lookupD_dictAdd_of_ne k k' v' m hne]

/-- The completeness of the modelled `insert_transformed_feature`: when every
base feature a column needs is present, the delegation leaves an entry for the
column in the mapping. -/
theorem insertTF_complete :
    ∀ (d : FeatureColumn) (s : TransState), d.basesPresent s.map = true →
      containsD (.col d) (insertTransformedFeature d s).map = true := by
  refine insertTransformedFeature.induct
    (fun d s => d.basesPresent s.map = true →
      containsD (.col d) (insertTransformedFeature d s).map = true)
    (fun l s => FCList.basesPresentL l s.map = true →
      (lookupCols l (ensureAll l s).map).isSome = true)
    ?_ ?_ ?_ ?_ ?_ ?_ ?_ ?_ ?_ ?_ ?_ ?_
  · intro n dim dt s s1 w hw hb
    have hw' : lookupD (.str n) s.map = some w := hw
    rw [insertTF_realValued_of_some n dim dt s w hw']
    simp only [addEntry, logCall]
    exact containsD_dictAdd_self _ _ _
  · intro n dim dt s s1 hw hb
    have hw' : lookupD (.str n) s.map = none := hw
    simp only [FeatureColumn.basesPresent, containsD, hw'] at hb
    simp at hb
  · intro n b s s1 w hw hb
    have hw' : lookupD (.str n) s.map = some w := hw
    rw [insertTF_sparseHashed_of_some n b s w hw']
    simp only [addEntry, logCall]
    exact containsD_dictAdd_self _ _ _
  · intro n b s s1 hw hb
    have hw' : lookupD (.str n) s.map = none := hw
    simp only [FeatureColumn.basesPresent, containsD, hw'] at hb
    simp at hb
  · intro src bnds s s1 s2 w hw ih hb
    have hw' : lookupD (.col src) (ensureCol src (logCall (.bucketized src bnds) s)).map
        = some w := hw
    rw [insertTF_bucketized_of_some src bnds s w hw']
    simp only [addEntry]
    exact containsD_dictAdd_self _ _ _
  · intro src bnds s s1 s2 hw ih hb
    have hb' : src.basesPresent s.map = true := by
      simpa only [FeatureColumn.basesPresent] using hb
    have hc : containsD (.col src) (ensureCol src (logCall (.bucketized src bnds) s)).map
        = true := by
      simp only [ensureCol]
      split
      · assumption
      · exact ih hb'
    have hw' : lookupD (.col src) (ensureCol src (logCall (.bucketized src bnds) s)).map
        = none := hw
    rw [containsD, hw'] at hc
    simp at hc
  · intro src dim s s1 s2 w hw ih hb
    have hw' : lookupD (.col src) (ensureCol src (logCall (.embedding src dim) s)).map
        = some w := hw
    rw [insertTF_embedding_of_some src dim s w hw']
    simp only [addEntry]
    exact containsD_dictAdd_self _ _ _
  · intro src dim s s1 s2 hw ih hb
    have hb' : src.basesPresent s.map = true := by
      simpa only [FeatureColumn.basesPresent] using hb
    have hc : containsD (.col src) (ensureCol src (logCall (.embedding src dim) s)).map
        = true := by
      simp only [ensureCol]
      split
      · assumption
      · exact ih hb'
    have hw' : lookupD (.col src) (ensureCol src (logCall (.embedding src dim) s)).map
        = none := hw
    rw [containsD, hw'] at hc
    simp at hc
  · intro ss b s s2 ts hts ih hb
    have hts' : lookupCols ss (ensureAll ss (logCall (.crossed ss b) s)).map = some ts := hts
    rw [insertTF_crossed_of_some ss b s ts hts']
    simp only [addEntry]
    exact containsD_dictAdd_self _ _ _
  · intro ss b s s2 hts ih hb
    have hb' : FCList.basesPresentL ss s.map = true := by
      simpa only [FeatureColumn.basesPresent] using hb
    have hc : (lookupCols ss (ensureAll ss (logCall (.crossed ss b) s)).map).isSome
        = true := ih hb'
    have hts' : lookupCols ss (ensureAll ss (logCall (.crossed ss b) s)).map = none := hts
    rw [hts'] at hc
    simp at hc
  · intro s hb
    simp [lookupCols, ensureAll]
  · intro c rest s ih1 ih2 hb
    simp only [FCList.basesPresentL, Bool.and_eq_true] at hb
    have hc : containsD (.col c) (ensureCol c s).map = true := by
      simp only [ensureCol]
      split
      · assumption
      · exact ih1 hb.1
    have ih2' : FCList.basesPresentL rest (ensureCol c s).map = true →
        (lookupCols rest (ensureAll rest (ensureCol c s)).map).isSome = true := ih2
    have hrest : FCList.basesPresentL rest (ensureCol c s).map = true :=
      basesPresentL_mono rest s.map (ensureCol c s).map
        (fun k hk => containsD_ensureCol_mono c s k hk) hb.2
    have hlc : (lookupCols rest (ensureAll rest (ensureCol c s)).map).isSome = true :=
      ih2' hrest
    have hcfin : containsD (.col c) (ensureAll rest (ensureCol c s)).map = true :=
      containsD_ensureAll_mono rest (ensureCol c s) (.col c) hc
    rw [ensureAll_cons]
    obtain ⟨v, hv⟩ := (containsD_iff_lookup _ _).mp hcfin
    obtain ⟨vs, hvs⟩ := Option.isSome_iff_exists.mp hlc
    simp only [lookupCols, hv, hvs]
    rfl

/-- `ensureCol` version of `insertTF_complete`. -/
theorem ensureCol_complete (c : FeatureColumn) (s : TransState)
    (hb : c.basesPresent s.map = true) :
    containsD (.col c) (ensureCol c s).map = true := by
  simp only [ensureCol]
  split
  · assumption
  · exact insertTF_complete c s hb

/-- `ensureAll` version of `insertTF_complete`. -/
theorem ensureAll_complete : ∀ (l : FCList) (s : TransState),
    FCList.basesPresentL l s.map = true →
    (lookupCols l (ensureAll l s).map).isSome = true
  | .nil, s, _ => by simp [lookupCols, ensureAll]
  | .cons c rest, s, hb => by
    simp only [FCList.basesPresentL, Bool.and_eq_true] at hb
    have hc : containsD (.col c) (ensureCol c s).map = true := ensureCol_complete c s hb.1
    have hrest : FCList.basesPresentL rest (ensureCol c s).map = true :=
      basesPresentL_mono rest s.map (ensureCol c s).map
        (fun k hk => containsD_ensureCol_mono c s k hk) hb.2
    have hlc : (lookupCols rest (ensureAll rest (ensureCol c s)).map).isSome = true :=
      ensureAll_complete rest (ensureCol c s) hrest
    have hcfin : containsD (.col c) (ensureAll rest (ensureCol c s)).map = true :=
      containsD_ensureAll_mono rest (ensureCol c s) (.col c) hc
    rw [ensureAll_cons]
    obtain ⟨v, hv⟩ := (containsD_iff_lookup _ _).mp hcfin
    obtain ⟨vs, hvs⟩ := Option.isSome_iff_exists.mp hlc
    simp only [lookupCols, hv, hvs]
    rfl

/-- Each `insert_transformed_feature` call appends to the call log, and every
appended (nested) invocation is for a column of dependency depth at most the
inserted column's depth. -/
theorem insertTF_calls_shape :
    ∀ (d : FeatureColumn) (s : TransState), ∃ l,
      (insertTransformedFeature d s).calls = s.calls ++ l ∧
        ∀ e ∈ l, FeatureColumn.depth e ≤ d.depth := by
  refine insertTransformedFeature.induct
    (fun d s => ∃ l, (insertTransformedFeature d s).calls = s.calls ++ l ∧
      ∀ e ∈ l, FeatureColumn.depth e ≤ d.depth)
    (fun l s => ∃ el, (ensureAll l s).calls = s.calls ++ el ∧
      ∀ e ∈ el, FeatureColumn.depth e ≤ FCList.depthMax l)
    ?_ ?_ ?_ ?_ ?_ ?_ ?_ ?_ ?_ ?_ ?_ ?_
  · intro n dim dt s s1 w hw
    have hw' : lookupD (.str n) s.map = some w := hw
    rw [insertTF_realValued_of_some n dim dt s w hw']
    exact ⟨[.realValued n dim dt], rfl, by simp⟩
  · intro n dim dt s s1 hw
    have hw' : lookupD (.str n) s.map = none := hw
    rw [insertTF_realValued_of_none n dim dt s hw']
    exact ⟨[.realValued n dim dt], rfl, by simp⟩
  · intro n b s s1 w hw
    have hw' : lookupD (.str n) s.map = some w := hw
    rw [insertTF_sparseHashed_of_some n b s w hw']
    exact ⟨[.sparseHashed n b], rfl, by simp⟩
  · intro n b s s1 hw
    have hw' : lookupD (.str n) s.map = none := hw
    rw [insertTF_sparseHashed_of_none n b s hw']
    exact ⟨[.sparseHashed n b], rfl, by simp⟩
  · intro src bnds s s1 s2 w hw ih
    have hw' : lookupD (.col src) (ensureCol src (logCall (.bucketized src bnds) s)).map
        = some w := hw
    rw [insertTF_bucketized_of_some src bnds s w hw']
    have hec : ∃ l₁, (ensureCol src (logCall (.bucketized src bnds) s)).calls
        = (logCall (.bucketized src bnds) s).calls ++ l₁ ∧
        ∀ e ∈ l₁, FeatureColumn.depth e ≤ src.depth := by
      simp only [ensureCol]
      split
      · exact ⟨[], by simp, by simp⟩
      · exact ih
    obtain ⟨l₁, hl₁, hd₁⟩ := hec
    refine ⟨.bucketized src bnds :: l₁, ?_, ?_⟩
    · show (ensureCol src (logCall (.bucketized src bnds) s)).calls = _
      rw [hl₁]
      simp [logCall]
    · intro e he
      rcases List.mem_cons.mp he with he | he
      · subst he; exact le_refl _
      · calc FeatureColumn.depth e ≤ src.depth := hd₁ e he
          _ ≤ (FeatureColumn.bucketized src bnds).depth := by
              simp [FeatureColumn.depth]
  · intro src bnds s s1 s2 hw ih
    have hw' : lookupD (.col src) (ensureCol src (logCall (.bucketized src bnds) s)).map
        = none := hw
    rw [insertTF_bucketized_of_none src bnds s hw']
    have hec : ∃ l₁, (ensureCol src (logCall (.bucketized src bnds) s)).calls
        = (logCall (.bucketized src bnds) s).calls ++ l₁ ∧
        ∀ e ∈ l₁, FeatureColumn.depth e ≤ src.depth := by
      simp only [ensureCol]
      split
      · exact ⟨[], by simp, by simp⟩
      · exact ih
    obtain ⟨l₁, hl₁, hd₁⟩ := hec
    refine ⟨.bucketized src bnds :: l₁, ?_, ?_⟩
    · rw [hl₁]
      simp [logCall]
    · intro e he
      rcases List.mem_cons.mp he with he | he
      · subst he; exact le_refl _
      · calc FeatureColumn.depth e ≤ src.depth := hd₁ e he
          _ ≤ (FeatureColumn.bucketized src bnds).depth := by
              simp [FeatureColumn.depth]
  · intro src dim s s1 s2 w hw ih
    have hw' : lookupD (.col src) (ensureCol src (logCall (.embedding src dim) s)).map
        = some w := hw
    rw [insertTF_embedding_of_some src dim s w hw']
    have hec : ∃ l₁, (ensureCol src (logCall (.embedding src dim) s)).calls
        = (logCall (.embedding src dim) s).calls ++ l₁ ∧
        ∀ e ∈ l₁, FeatureColumn.depth e ≤ src.depth := by
      simp only [ensureCol]
      split
      · exact ⟨[], by simp, by simp⟩
      · exact ih
    obtain ⟨l₁, hl₁, hd₁⟩ := hec
    refine ⟨.embedding src dim :: l₁, ?_, ?_⟩
    · show (ensureCol src (logCall (.embedding src dim) s)).calls = _
      rw [hl₁]
      simp [logCall]
    · intro e he
      rcases List.mem_cons.mp he with he | he
      · subst he; exact le_refl _
      · calc FeatureColumn.depth e ≤ src.depth := hd₁ e he
          _ ≤ (FeatureColumn.embedding src dim).depth := by
              simp [FeatureColumn.depth]
  · intro src dim s s1 s2 hw ih
    have hw' : lookupD (.col src) (ensureCol src (logCall (.embedding src dim) s)).map
        = none := hw
    rw [insertTF_embedding_of_none src dim s hw']
    have hec : ∃ l₁, (ensureCol src (logCall (.embedding src dim) s)).calls
        = (logCall (.embedding src dim) s).calls ++ l₁ ∧
        ∀ e ∈ l₁, FeatureColumn.depth e ≤ src.depth := by
      simp only [ensureCol]
      split
      · exact ⟨[], by simp, by simp⟩
      · exact ih
    obtain ⟨l₁, hl₁, hd₁⟩ := hec
    refine ⟨.embedding src dim :: l₁, ?_, ?_⟩
    · rw [hl₁]
      simp [logCall]
    · intro e he
      rcases List.mem_cons.mp he with he | he
      · subst he; exact le_refl _
      · calc FeatureColumn.depth e ≤ src.depth := hd₁ e he
          _ ≤ (FeatureColumn.embedding src dim).depth := by
              simp [FeatureColumn.depth]
  · intro ss b s s2 ts hts ih
    have hts' : lookupCols ss (ensureAll ss (logCall (.crossed ss b) s)).map = some ts := hts
    rw [insertTF_crossed_of_some ss b s ts hts']
    obtain ⟨l₁, hl₁, hd₁⟩ := ih
    refine ⟨.crossed ss b :: l₁, ?_, ?_⟩
    · show (ensureAll ss (logCall (.crossed ss b) s)).calls = _
      rw [hl₁]
      simp [logCall]
    · intro e he
      rcases List.mem_cons.mp he with he | he
      · subst he; exact le_refl _
      · calc FeatureColumn.depth e ≤ FCList.depthMax ss := hd₁ e he
          _ ≤ (FeatureColumn.crossed ss b).depth := by
              simp [FeatureColumn.depth]
  · intro ss b s s2 hts ih
    have hts' : lookupCols ss (ensureAll ss (logCall (.crossed ss b) s)).map = none := hts
    rw [insertTF_crossed_of_none ss b s hts']
    obtain ⟨l₁, hl₁, hd₁⟩ := ih
    refine ⟨.crossed ss b :: l₁, ?_, ?_⟩
    · rw [hl₁]
      simp [logCall]
    · intro e he
      rcases List.mem_cons.mp he with he | he
      · subst he; exact le_refl _
      · calc FeatureColumn.depth e ≤ FCList.depthMax ss := hd₁ e he
          _ ≤ (FeatureColumn.crossed ss b).depth := by
              simp [FeatureColumn.depth]
  · intro s
    exact ⟨[], by simp [ensureAll], by simp⟩
  · intro c rest s ih1 ih2
    have hec : ∃ l₁, (ensureCol c s).calls = s.calls ++ l₁ ∧
        ∀ e ∈ l₁, FeatureColumn.depth e ≤ c.depth := by
      simp only [ensureCol]
      split
      · exact ⟨[], by simp, by simp⟩
      · exact ih1
    obtain ⟨l₁, hl₁, hd₁⟩ := hec
    have ih2' : ∃ el, (ensureAll rest (ensureCol c s)).calls = (ensureCol c s).calls ++ el ∧
        ∀ e ∈ el, FeatureColumn.depth e ≤ FCList.depthMax rest := ih2
    obtain ⟨l₂, hl₂, hd₂⟩ := ih2'
    refine ⟨l₁ ++ l₂, ?_, ?_⟩
    · rw [ensureAll_cons, hl₂, hl₁, List.append_assoc]
    · intro e he
      rcases List.mem_append.mp he with he | he
      · calc FeatureColumn.depth e ≤ c.depth := hd₁ e he
          _ ≤ FCList.depthMax (.cons c rest) := by simp [FCList.depthMax]
      · calc FeatureColumn.depth e ≤ FCList.depthMax rest := hd₂ e he
          _ ≤ FCList.depthMax (.cons c rest) := by simp [FCList.depthMax]

/-- `ensureCol` version of `insertTF_calls_shape`. -/
theorem ensureCol_calls_shape (c : FeatureColumn) (s : TransState) :
    ∃ l, (ensureCol c s).calls = s.calls ++ l ∧
      ∀ e ∈ l, FeatureColumn.depth e ≤ c.depth := by
  simp only [ensureCol]
  split
  · exact ⟨[], by simp, by simp⟩
  · exact insertTF_calls_shape c s

/-- `ensureAll` version of `insertTF_calls_shape`. -/
theorem ensureAll_calls_shape : ∀ (l : FCList) (s : TransState),
    ∃ el, (ensureAll l s).calls = s.calls ++ el ∧
      ∀ e ∈ el, FeatureColumn.depth e ≤ FCList.depthMax l
  | .nil, s => ⟨[], by simp [ensureAll], by simp⟩
  | .cons c rest, s => by
    obtain ⟨l₁, hl₁, hd₁⟩ := ensureCol_calls_shape c s
    obtain ⟨l₂, hl₂, hd₂⟩ := ensureAll_calls_shape rest (ensureCol c s)
    refine ⟨l₁ ++ l₂, ?_, ?_⟩
    · rw [ensureAll_cons, hl₂, hl₁, List.append_assoc]
    · intro e he
      rcases List.mem_append.mp he with he | he
      · calc FeatureColumn.depth e ≤ c.depth := hd₁ e he
          _ ≤ FCList.depthMax (.cons c rest) := by simp [FCList.depthMax]
      · calc FeatureColumn.depth e ≤ FCList.depthMax rest := hd₂ e he
          _ ≤ FCList.depthMax (.cons c rest) := by simp [FCList.depthMax]

theorem count_append_one (l : List FeatureColumn) (d C : FeatureColumn) :
    (l ++ [d]).count C = l.count C + if d = C then 1 else 0 := by
  rw [List.count_append, List.count_singleton']

theorem count_append_one_ne (l : List FeatureColumn) (d C : FeatureColumn) (h : d ≠ C) :
    (l ++ [d]).count C = l.count C := by
  rw [count_append_one, if_neg h, Nat.add_zero]

/-- Once a column's entry is present, no later insertion (for another column)
invokes that column's `insert_transformed_feature` again. -/
theorem insertTF_count_frozen (C : FeatureColumn) :
    ∀ (d : FeatureColumn) (s : TransState), containsD (.col C) s.map = true → d ≠ C →
      (insertTransformedFeature d s).calls.count C = s.calls.count C := by
  refine insertTransformedFeature.induct
    (fun d s => containsD (.col C) s.map = true → d ≠ C →
      (insertTransformedFeature d s).calls.count C = s.calls.count C)
    (fun l s => containsD (.col C) s.map = true →
      (ensureAll l s).calls.count C = s.calls.count C)
    ?_ ?_ ?_ ?_ ?_ ?_ ?_ ?_ ?_ ?_ ?_ ?_
  · intro n dim dt s s1 w hw hC hne
    have hw' : lookupD (.str n) s.map = some w := hw
    rw [insertTF_realValued_of_some n dim dt s w hw']
    exact count_append_one_ne _ _ _ hne
  · intro n dim dt s s1 hw hC hne
    have hw' : lookupD (.str n) s.map = none := hw
    rw [insertTF_realValued_of_none n dim dt s hw']
    exact count_append_one_ne _ _ _ hne
  · intro n b s s1 w hw hC hne
    have hw' : lookupD (.str n) s.map = some w := hw
    rw [insertTF_sparseHashed_of_some n b s w hw']
    exact count_append_one_ne _ _ _ hne
  · intro n b s s1 hw hC hne
    have hw' : lookupD (.str n) s.map = none := hw
    rw [insertTF_sparseHashed_of_none n b s hw']
    exact count_append_one_ne _ _ _ hne
  · intro src bnds s s1 s2 w hw ih hC hne
    have hw' : lookupD (.col src) (ensureCol src (logCall (.bucketized src bnds) s)).map
        = some w := hw
    rw [insertTF_bucketized_of_some src bnds s w hw']
    have hC1 : containsD (.col C) (logCall (.bucketized src bnds) s).map = true := hC
    have hec : (ensureCol src (logCall (.bucketized src bnds) s)).calls.count C
        = (logCall (.bucketized src bnds) s).calls.count C := by
      simp only [ensureCol]
      split
      · rfl
      · refine ih hC1 (fun he => ?_)
        subst he
        exact absurd hC1 (by assumption)
    calc (addEntry (.col (.bucketized src bnds)) (.bucketizeOp w bnds)
            (ensureCol src (logCall (.bucketized src bnds) s))).calls.count C
        = (ensureCol src (logCall (.bucketized src bnds) s)).calls.count C := rfl
      _ = (logCall (.bucketized src bnds) s).calls.count C := hec
      _ = s.calls.count C := count_append_one_ne _ _ _ hne
  · intro src bnds s s1 s2 hw ih hC hne
    have hw' : lookupD (.col src) (ensureCol src (logCall (.bucketized src bnds) s)).map
        = none := hw
    rw [insertTF_bucketized_of_none src bnds s hw']
    have hC1 : containsD (.col C) (logCall (.bucketized src bnds) s).map = true := hC
    have hec : (ensureCol src (logCall (.bucketized src bnds) s)).calls.count C
        = (logCall (.bucketized src bnds) s).calls.count C := by
      simp only [ensureCol]
      split
      · rfl
      · refine ih hC1 (fun he => ?_)
        subst he
        exact absurd hC1 (by assumption)
    calc (ensureCol src (logCall (.bucketized src bnds) s)).calls.count C
        = (logCall (.bucketized src bnds) s).calls.count C := hec
      _ = s.calls.count C := count_append_one_ne _ _ _ hne
  · intro src dim s s1 s2 w hw ih hC hne
    have hw' : lookupD (.col src) (ensureCol src (logCall (.embedding src dim) s)).map
        = some w := hw
    rw [insertTF_embedding_of_some src dim s w hw']
    have hC1 : containsD (.col C) (logCall (.embedding src dim) s).map = true := hC
    have hec : (ensureCol src (logCall (.embedding src dim) s)).calls.count C
        = (logCall (.embedding src dim) s).calls.count C := by
      simp only [ensureCol]
      split
      · rfl
      · refine ih hC1 (fun he => ?_)
        subst he
        exact absurd hC1 (by assumption)
    calc (addEntry (.col (.embedding src dim)) w
            (ensureCol src (logCall (.embedding src dim) s))).calls.count C
        = (ensureCol src (logCall (.embedding src dim) s)).calls.count C := rfl
      _ = (logCall (.embedding src dim) s).calls.count C := hec
      _ = s.calls.count C := count_append_one_ne _ _ _ hne
  · intro src dim s s1 s2 hw ih hC hne
    have hw' : lookupD (.col src) (ensureCol src (logCall (.embedding src dim) s)).map
        = none := hw
    rw [insertTF_embedding_of_none src dim s hw']
    have hC1 : containsD (.col C) (logCall (.embedding src dim) s).map = true := hC
    have hec : (ensureCol src (logCall (.embedding src dim) s)).calls.count C
        = (logCall (.embedding src dim) s).calls.count C := by
      simp only [ensureCol]
      split
      · rfl
      · refine ih hC1 (fun he => ?_)
        subst he
        exact absurd hC1 (by assumption)
    calc (ensureCol src (logCall (.embedding src dim) s)).calls.count C
        = (logCall (.embedding src dim) s).calls.count C := hec
      _ = s.calls.count C := count_append_one_ne _ _ _ hne
  · intro ss b s s2 ts hts ih hC hne
    have hts' : lookupCols ss (ensureAll ss (logCall (.crossed ss b) s)).map = some ts := hts
    rw [insertTF_crossed_of_some ss b s ts hts']
    have hC1 : containsD (.col C) (logCall (.crossed ss b) s).map = true := hC
    calc (addEntry (.col (.crossed ss b)) (.crossOp ts b)
            (ensureAll ss (logCall (.crossed ss b) s))).calls.count C
        = (ensureAll ss (logCall (.crossed ss b) s)).calls.count C := rfl
      _ = (logCall (.crossed ss b) s).calls.count C := ih hC1
      _ = s.calls.count C := count_append_one_ne _ _ _ hne
  · intro ss b s s2 hts ih hC hne
    have hts' : lookupCols ss (ensureAll ss (logCall (.crossed ss b) s)).map = none := hts
    rw [insertTF_crossed_of_none ss b s hts']
    have hC1 : containsD (.col C) (logCall (.crossed ss b) s).map = true := hC
    calc (ensureAll ss (logCall (.crossed ss b) s)).calls.count C
        = (logCall (.crossed ss b) s).calls.count C := ih hC1
      _ = s.calls.count C := count_append_one_ne _ _ _ hne
  · intro s hC
    rfl
  · intro c rest s ih1 ih2 hC
    have h1 : (ensureCol c s).calls.count C = s.calls.count C := by
      simp only [ensureCol]
      split
      · rfl
      · refine ih1 hC (fun he => ?_)
        subst he
        exact absurd hC (by assumption)
    have hC' : containsD (.col C) (ensureCol c s).map = true :=
      containsD_ensureCol_mono c s (.col C) hC
    have ih2' : containsD (.col C) (ensureCol c s).map = true →
        (ensureAll rest (ensureCol c s)).calls.count C = (ensureCol c s).calls.count C := ih2
    calc (ensureAll (.cons c rest) s).calls.count C
        = (ensureAll rest (ensureCol c s)).calls.count C := by rw [ensureAll_cons]
      _ = (ensureCol c s).calls.count C := ih2' hC'
      _ = s.calls.count C := h1

/-- `ensureCol` version of `insertTF_count_frozen`. -/
theorem ensureCol_count_frozen (C c : FeatureColumn) (s : TransState)
    (hC : containsD (.col C) s.map = true) :
    (ensureCol c s).calls.count C = s.calls.count C := by
  simp only [ensureCol]
  split
  · rfl
  · refine insertTF_count_frozen C c s hC (fun he => ?_)
    subst he
    exact absurd hC (by assumption)

/-- `ensureAll` version of `insertTF_count_frozen`. -/
theorem ensureAll_count_frozen (C : FeatureColumn) :
    ∀ (l : FCList) (s : TransState), containsD (.col C) s.map = true →
      (ensureAll l s).calls.count C = s.calls.count C
  | .nil, _, _ => rfl
  | .cons c rest, s, hC => by
    have h1 := ensureCol_count_frozen C c s hC
    have hC' : containsD (.col C) (ensureCol c s).map = true :=
      containsD_ensureCol_mono c s (.col C) hC
    calc (ensureAll (.cons c rest) s).calls.count C
        = (ensureAll rest (ensureCol c s)).calls.count C := by rw [ensureAll_cons]
      _ = (ensureCol c s).calls.count C := ensureAll_count_frozen C rest (ensureCol c s) hC'
      _ = s.calls.count C := h1

/-- While a column `C` (whose bases are present) has no entry yet, any single
`insert_transformed_feature` call either leaves `C`'s invocation count and
absence untouched, or invokes `C`'s insertion exactly once and thereby makes
its entry present. -/
theorem insertTF_count_absent (C : FeatureColumn) :
    ∀ (d : FeatureColumn) (s : TransState),
      C.basesPresent s.map = true → containsD (.col C) s.map = false →
      ((insertTransformedFeature d s).calls.count C = s.calls.count C ∧
        containsD (.col C) (insertTransformedFeature d s).map = false) ∨
      ((insertTransformedFeature d s).calls.count C = s.calls.count C + 1 ∧
        containsD (.col C) (insertTransformedFeature d s).map = true) := by
  refine insertTransformedFeature.induct
    (fun d s => C.basesPresent s.map = true → containsD (.col C) s.map = false →
      ((insertTransformedFeature d s).calls.count C = s.calls.count C ∧
        containsD (.col C) (insertTransformedFeature d s).map = false) ∨
      ((insertTransformedFeature d s).calls.count C = s.calls.count C + 1 ∧
        containsD (.col C) (insertTransformedFeature d s).map = true))
    (fun l s => C.basesPresent s.map = true → containsD (.col C) s.map = false →
      ((ensureAll l s).calls.count C = s.calls.count C ∧
        containsD (.col C) (ensureAll l s).map = false) ∨
      ((ensureAll l s).calls.count C = s.calls.count C + 1 ∧
        containsD (.col C) (ensureAll l s).map = true))
    ?_ ?_ ?_ ?_ ?_ ?_ ?_ ?_ ?_ ?_ ?_ ?_
  · intro n dim dt s s1 w hw hb hC
    have hw' : lookupD (.str n) s.map = some w := hw
    rw [insertTF_realValued_of_some n dim dt s w hw']
    by_cases hdc : FeatureColumn.realValued n dim dt = C
    · right
      constructor
      · show (s.calls ++ [FeatureColumn.realValued n dim dt]).count C = s.calls.count C + 1
        rw [count_append_one, if_pos hdc]
      · show containsD (.col C) (dictAdd (.col (.realValued n dim dt)) w s.map) = true
        rw [← hdc]
        exact containsD_dictAdd_self _ _ _
    · left
      constructor
      · exact count_append_one_ne _ _ _ hdc
      · show containsD (.col C) (dictAdd (.col (.realValued n dim dt)) w s.map) = false
        rw [containsD_dictAdd_of_ne _ _ _ _ (fun h => hdc (FKey.col.inj h))]
        exact hC
  · intro n dim dt s s1 hw hb hC
    have hw' : lookupD (.str n) s.map = none := hw
    rw [insertTF_realValued_of_none n dim dt s hw']
    by_cases hdc : FeatureColumn.realValued n dim dt = C
    · exfalso
      rw [← hdc] at hb
      simp only [FeatureColumn.basesPresent, containsD, hw'] at hb
      simp at hb
    · left
      exact ⟨count_append_one_ne _ _ _ hdc, hC⟩
  · intro n b s s1 w hw hb hC
    have hw' : lookupD (.str n) s.map = some w := hw
    rw [insertTF_sparseHashed_of_some n b s w hw']
    by_cases hdc : FeatureColumn.sparseHashed n b = C
    · right
      constructor
      · show (s.calls ++ [FeatureColumn.sparseHashed n b]).count C = s.calls.count C + 1
        rw [count_append_one, if_pos hdc]
      · show containsD (.col C) (dictAdd (.col (.sparseHashed n b)) (.hashOp w b) s.map) = true
        rw [← hdc]
        exact containsD_dictAdd_self _ _ _
    · left
      constructor
      · exact count_append_one_ne _ _ _ hdc
      · show containsD (.col C) (dictAdd (.col (.sparseHashed n b)) (.hashOp w b) s.map) = false
        rw [containsD_dictAdd_of_ne _ _ _ _ (fun h => hdc (FKey.col.inj h))]
        exact hC
  · intro n b s s1 hw hb hC
    have hw' : lookupD (.str n) s.map = none := hw
    rw [insertTF_sparseHashed_of_none n b s hw']
    by_cases hdc : FeatureColumn.sparseHashed n b = C
    · exfalso
      rw [← hdc] at hb
      simp only [FeatureColumn.basesPresent, containsD, hw'] at hb
      simp at hb
    · left
      exact ⟨count_append_one_ne _ _ _ hdc, hC⟩
  · intro src bnds s s1 s2 w hw ih hb hC
    have hw' : lookupD (.col src) (ensureCol src (logCall (.bucketized src bnds) s)).map
        = some w := hw
    rw [insertTF_bucketized_of_some src bnds s w hw']
    by_cases hdc : FeatureColumn.bucketized src bnds = C
    · right
      constructor
      · obtain ⟨l₁, hl₁, hd₁⟩ := ensureCol_calls_shape src (logCall (.bucketized src bnds) s)
        show (ensureCol src (logCall (.bucketized src bnds) s)).calls.count C
            = s.calls.count C + 1
        rw [hl₁, List.count_append]
        have hzero : l₁.count C = 0 := by
          rw [List.count_eq_zero]
          intro hmem
          have hle := hd₁ _ hmem
          rw [← hdc] at hle
          simp only [FeatureColumn.depth] at hle
          omega
        rw [hzero, Nat.add_zero]
        show (s.calls ++ [FeatureColumn.bucketized src bnds]).count C = _
        rw [count_append_one, if_pos hdc]
      · show containsD (.col C) (dictAdd (.col (.bucketized src bnds)) (.bucketizeOp w bnds)
            (ensureCol src (logCall (.bucketized src bnds) s)).map) = true
        rw [← hdc]
        exact containsD_dictAdd_self _ _ _
    · have hb1 : C.basesPresent (logCall (.bucketized src bnds) s).map = true := hb
      have hC1 : containsD (.col C) (logCall (.bucketized src bnds) s).map = false := hC
      have hec :
          ((ensureCol src (logCall (.bucketized src bnds) s)).calls.count C
              = (logCall (.bucketized src bnds) s).calls.count C ∧
            containsD (.col C) (ensureCol src (logCall (.bucketized src bnds) s)).map
              = false) ∨
          ((ensureCol src (logCall (.bucketized src bnds) s)).calls.count C
              = (logCall (.bucketized src bnds) s).calls.count C + 1 ∧
            containsD (.col C) (ensureCol src (logCall (.bucketized src bnds) s)).map
              = true) := by
        simp only [ensureCol]
        split
        · left; exact ⟨rfl, hC1⟩
        · exact ih hb1 hC1
      have hcountlog : (logCall (.bucketized src bnds) s).calls.count C = s.calls.count C :=
        count_append_one_ne _ _ _ hdc
      rcases hec with ⟨hcnt, hcont⟩ | ⟨hcnt, hcont⟩
      · left
        constructor
        · show (ensureCol src (logCall (.bucketized src bnds) s)).calls.count C = _
          rw [hcnt, hcountlog]
        · show containsD (.col C) (dictAdd (.col (.bucketized src bnds)) (.bucketizeOp w bnds)
              (ensureCol src (logCall (.bucketized src bnds) s)).map) = false
          rw [containsD_dictAdd_of_ne _ _ _ _ (fun h => hdc (FKey.col.inj h))]
          exact hcont
      · right
        constructor
        · show (ensureCol src (logCall (.bucketized src bnds) s)).calls.count C = _
          rw [hcnt, hcountlog]
        · show containsD (.col C) (dictAdd (.col (.bucketized src bnds)) (.bucketizeOp w bnds)
              (ensureCol src (logCall (.bucketized src bnds) s)).map) = true
          exact containsD_dictAdd_of_contains _ _ _ _ hcont
  · intro src bnds s s1 s2 hw ih hb hC
    have hw' : lookupD (.col src) (ensureCol src (logCall (.bucketized src bnds) s)).map
        = none := hw
    rw [insertTF_bucketized_of_none src bnds s hw']
    by_cases hdc : FeatureColumn.bucketized src bnds = C
    · exfalso
      rw [← hdc] at hb
      have hb' : src.basesPresent (logCall (.bucketized src bnds) s).map = true := by
        simpa only [FeatureColumn.basesPresent] using hb
      have hc := ensureCol_complete src (logCall (.bucketized src bnds) s) hb'
      rw [containsD, hw'] at hc
      simp at hc
    · have hb1 : C.basesPresent (logCall (.bucketized src bnds) s).map = true := hb
      have hC1 : containsD (.col C) (logCall (.bucketized src bnds) s).map = false := hC
      have hcountlog : (logCall (.bucketized src bnds) s).calls.count C = s.calls.count C :=
        count_append_one_ne _ _ _ hdc
      have hec :
          ((ensureCol src (logCall (.bucketized src bnds) s)).calls.count C
              = (logCall (.bucketized src bnds) s).calls.count C ∧
            containsD (.col C) (ensureCol src (logCall (.bucketized src bnds) s)).map
              = false) ∨
          ((ensureCol src (logCall (.bucketized src bnds) s)).calls.count C
              = (logCall (.bucketized src bnds) s).calls.count C + 1 ∧
            containsD (.col C) (ensureCol src (logCall (.bucketized src bnds) s)).map
              = true) := by
        simp only [ensureCol]
        split
        · left; exact ⟨rfl, hC1⟩
        · exact ih hb1 hC1
      rcases hec with ⟨hcnt, hcont⟩ | ⟨hcnt, hcont⟩
      · left; exact ⟨by rw [hcnt, hcountlog], hcont⟩
      · right; exact ⟨by rw [hcnt, hcountlog], hcont⟩
  · intro src dim s s1 s2 w hw ih hb hC
    have hw' : lookupD (.col src) (ensureCol src (logCall (.embedding src dim) s)).map
        = some w := hw
    rw [insertTF_embedding_of_some src dim s w hw']
    by_cases hdc : FeatureColumn.embedding src dim = C
    · right
      constructor
      · obtain ⟨l₁, hl₁, hd₁⟩ := ensureCol_calls_shape src (logCall (.embedding src dim) s)
        show (ensureCol src (logCall (.embedding src dim) s)).calls.count C
            = s.calls.count C + 1
        rw [hl₁, List.count_append]
        have hzero : l₁.count C = 0 := by
          rw [List.count_eq_zero]
          intro hmem
          have hle := hd₁ _ hmem
          rw [← hdc] at hle
          simp only [FeatureColumn.depth] at hle
          omega
        rw [hzero, Nat.add_zero]
        show (s.calls ++ [FeatureColumn.embedding src dim]).count C = _
        rw [count_append_one, if_pos hdc]
      · show containsD (.col C) (dictAdd (.col (.embedding src dim)) w
            (ensureCol src (logCall (.embedding src dim) s)).map) = true
        rw [← hdc]
        exact containsD_dictAdd_self _ _ _
    · have hb1 : C.basesPresent (logCall (.embedding src dim) s).map = true := hb
      have hC1 : containsD (.col C) (logCall (.embedding src dim) s).map = false := hC
      have hec :
          ((ensureCol src (logCall (.embedding src dim) s)).calls.count C
              = (logCall (.embedding src dim) s).calls.count C ∧
            containsD (.col C) (ensureCol src (logCall (.embedding src dim) s)).map
              = false) ∨
          ((ensureCol src (logCall (.embedding src dim) s)).calls.count C
              = (logCall (.embedding src dim) s).calls.count C + 1 ∧
            containsD (.col C) (ensureCol src (logCall (.embedding src dim) s)).map
              = true) := by
        simp only [ensureCol]
        split
        · left; exact ⟨rfl, hC1⟩
        · exact ih hb1 hC1
      have hcountlog : (logCall (.embedding src dim) s).calls.count C = s.calls.count C :=
        count_append_one_ne _ _ _ hdc
      rcases hec with ⟨hcnt, hcont⟩ | ⟨hcnt, hcont⟩
      · left
        constructor
        · show (ensureCol src (logCall (.embedding src dim) s)).calls.count C = _
          rw [hcnt, hcountlog]
        · show containsD (.col C) (dictAdd (.col (.embedding src dim)) w
              (ensureCol src (logCall (.embedding src dim) s)).map) = false
          rw [containsD_dictAdd_of_ne _ _ _ _ (fun h => hdc (FKey.col.inj h))]
          exact hcont
      · right
        constructor
        · show (ensureCol src (logCall (.embedding src dim) s)).calls.count C = _
          rw [hcnt, hcountlog]
        · show containsD (.col C) (dictAdd (.col (.embedding src dim)) w
              (ensureCol src (logCall (.embedding src dim) s)).map) = true
          exact containsD_dictAdd_of_contains _ _ _ _ hcont
  · intro src dim s s1 s2 hw ih hb hC
    have hw' : lookupD (.col src) (ensureCol src (logCall (.embedding src dim) s)).map
        = none := hw
    rw [insertTF_embedding_of_none src dim s hw']
    by_cases hdc : FeatureColumn.embedding src dim = C
    · exfalso
      rw [← hdc] at hb
      have hb' : src.basesPresent (logCall (.embedding src dim) s).map = true := by
        simpa only [FeatureColumn.basesPresent] using hb
      have hc := ensureCol_complete src (logCall (.embedding src dim) s) hb'
      rw [containsD, hw'] at hc
      simp at hc
    · have hb1 : C.basesPresent (logCall (.embedding src dim) s).map = true := hb
      have hC1 : containsD (.col C) (logCall (.embedding src dim) s).map = false := hC
      have hcountlog : (logCall (.embedding src dim) s).calls.count C = s.calls.count C :=
        count_append_one_ne _ _ _ hdc
      have hec :
          ((ensureCol src (logCall (.embedding src dim) s)).calls.count C
              = (logCall (.embedding src dim) s).calls.count C ∧
            containsD (.col C) (ensureCol src (logCall (.embedding src dim) s)).map
              = false) ∨
          ((ensureCol src (logCall (.embedding src dim) s)).calls.count C
              = (logCall (.embedding src dim) s).calls.count C + 1 ∧
            containsD (.col C) (ensureCol src (logCall (.embedding src dim) s)).map
              = true) := by
        simp only [ensureCol]
        split
        · left; exact ⟨rfl, hC1⟩
        · exact ih hb1 hC1
      rcases hec with ⟨hcnt, hcont⟩ | ⟨hcnt, hcont⟩
      · left; exact ⟨by rw [hcnt, hcountlog], hcont⟩
      · right; exact ⟨by rw [hcnt, hcountlog], hcont⟩
  · intro ss b s s2 ts hts ih hb hC
    have hts' : lookupCols ss (ensureAll ss (logCall (.crossed ss b) s)).map = some ts := hts
    rw [insertTF_crossed_of_some ss b s ts hts']
    by_cases hdc : FeatureColumn.crossed ss b = C
    · right
      constructor
      · obtain ⟨l₁, hl₁, hd₁⟩ := ensureAll_calls_shape ss (logCall (.crossed ss b) s)
        show (ensureAll ss (logCall (.crossed ss b) s)).calls.count C = s.calls.count C + 1
        rw [hl₁, List.count_append]
        have hzero : l₁.count C = 0 := by
          rw [List.count_eq_zero]
          intro hmem
          have hle := hd₁ _ hmem
          rw [← hdc] at hle
          simp only [FeatureColumn.depth] at hle
          omega
        rw [hzero, Nat.add_zero]
        show (s.calls ++ [FeatureColumn.crossed ss b]).count C = _
        rw [count_append_one, if_pos hdc]
      · show containsD (.col C) (dictAdd (.col (.crossed ss b)) (.crossOp ts b)
            (ensureAll ss (logCall (.crossed ss b) s)).map) = true
        rw [← hdc]
        exact containsD_dictAdd_self _ _ _
    · have hb1 : C.basesPresent (logCall (.crossed ss b) s).map = true := hb
      have hC1 : containsD (.col C) (logCall (.crossed ss b) s).map = false := hC
      have hcountlog : (logCall (.crossed ss b) s).calls.count C = s.calls.count C :=
        count_append_one_ne _ _ _ hdc
      rcases ih hb1 hC1 with ⟨hcnt, hcont⟩ | ⟨hcnt, hcont⟩
      · left
        constructor
        · show (ensureAll ss (logCall (.crossed ss b) s)).calls.count C = _
          rw [hcnt, hcountlog]
        · show containsD (.col C) (dictAdd (.col (.crossed ss b)) (.crossOp ts b)
              (ensureAll ss (logCall (.crossed ss b) s)).map) = false
          rw [containsD_dictAdd_of_ne _ _ _ _ (fun h => hdc (FKey.col.inj h))]
          exact hcont
      · right
        constructor
        · show (ensureAll ss (logCall (.crossed ss b) s)).calls.count C = _
          rw [hcnt, hcountlog]
        · show containsD (.col C) (dictAdd (.col (.crossed ss b)) (.crossOp ts b)
              (ensureAll ss (logCall (.crossed ss b) s)).map) = true
          exact containsD_dictAdd_of_contains _ _ _ _ hcont
  · intro ss b s s2 hts ih hb hC
    have hts' : lookupCols ss (ensureAll ss (logCall (.crossed ss b) s)).map = none := hts
    rw [insertTF_crossed_of_none ss b s hts']
    by_cases hdc : FeatureColumn.crossed ss b = C
    · exfalso
      rw [← hdc] at hb
      have hb' : FCList.basesPresentL ss (logCall (.crossed ss b) s).map = true := by
        simpa only [FeatureColumn.basesPresent] using hb
      have hc := ensureAll_complete ss (logCall (.crossed ss b) s) hb'
      rw [hts'] at hc
      simp at hc
    · have hb1 : C.basesPresent (logCall (.crossed ss b) s).map = true := hb
      have hC1 : containsD (.col C) (logCall (.crossed ss b) s).map = false := hC
      have hcountlog : (logCall (.crossed ss b) s).calls.count C = s.calls.count C :=
        count_append_one_ne _ _ _ hdc
      rcases ih hb1 hC1 with ⟨hcnt, hcont⟩ | ⟨hcnt, hcont⟩
      · left; exact ⟨by rw [hcnt, hcountlog], hcont⟩
      · right; exact ⟨by rw [hcnt, hcountlog], hcont⟩
  · intro s hb hC
    left
    exact ⟨rfl, hC⟩
  · intro c rest s ih1 ih2 hb hC
    have hec :
        ((ensureCol c s).calls.count C = s.calls.count C ∧
          containsD (.col C) (ensureCol c s).map = false) ∨
        ((ensureCol c s).calls.count C = s.calls.count C + 1 ∧
          containsD (.col C) (ensureCol c s).map = true) := by
      simp only [ensureCol]
      split
      · left; exact ⟨rfl, hC⟩
      · exact ih1 hb hC
    have ih2' : C.basesPresent (ensureCol c s).map = true →
        containsD (.col C) (ensureCol c s).map = false →
        ((ensureAll rest (ensureCol c s)).calls.count C = (ensureCol c s).calls.count C ∧
          containsD (.col C) (ensureAll rest (ensureCol c s)).map = false) ∨
        ((ensureAll rest (ensureCol c s)).calls.count C = (ensureCol c s).calls.count C + 1 ∧
          containsD (.col C) (ensureAll rest (ensureCol c s)).map = true) := ih2
    rw [ensureAll_cons]
    have hb' : C.basesPresent (ensureCol c s).map = true :=
      basesPresent_mono C s.map (ensureCol c s).map
        (fun k hk => containsD_ensureCol_mono c s k hk) hb
    rcases hec with ⟨hcnt, hcont⟩ | ⟨hcnt, hcont⟩
    · rcases ih2' hb' hcont with ⟨h2c, h2m⟩ | ⟨h2c, h2m⟩
      · left; exact ⟨by rw [h2c, hcnt], h2m⟩
      · right; exact ⟨by rw [h2c, hcnt], h2m⟩
    · right
      constructor
      · rw [ensureAll_count_frozen C rest (ensureCol c s) hcont, hcnt]
      · exact containsD_ensureAll_mono rest (ensureCol c s) _ hcont

theorem transform_eq (d : FeatureColumn) (s : TransState) :
    transform d s =
      match lookupD (.col d) s.map with
      | some v => (.ok v, s)
      | none =>
        match lookupD (.col d) (insertTransformedFeature d s).map with
        | some v => (.ok v, insertTransformedFeature d s)
        | none => (.error ("Column " ++ d.name ++ " is not supported."),
            insertTransformedFeature d s) := rfl

theorem transform_of_present (d : FeatureColumn) (s : TransState) (v : Tensor)
    (h : lookupD (.col d) s.map = some v) : transform d s = (.ok v, s) := by
  rw [transform_eq, h]

theorem transform_of_absent_found (d : FeatureColumn) (s : TransState) (v : Tensor)
    (h : lookupD (.col d) s.map = none)
    (h' : lookupD (.col d) (insertTransformedFeature d s).map = some v) :
    transform d s = (.ok v, insertTransformedFeature d s) := by
  rw [transform_eq, h, h']

theorem transform_of_absent_missing (d : FeatureColumn) (s : TransState)
    (h : lookupD (.col d) s.map = none)
    (h' : lookupD (.col d) (insertTransformedFeature d s).map = none) :
    transform d s = (.error ("Column " ++ d.name ++ " is not supported."),
      insertTransformedFeature d s) := by
  rw [transform_eq, h, h']

theorem transform_snd_of_absent (d : FeatureColumn) (s : TransState)
    (h : lookupD (.col d) s.map = none) :
    (transform d s).2 = insertTransformedFeature d s := by
  rcases h' : lookupD (.col d) (insertTransformedFeature d s).map with _ | v
  · rw [transform_of_absent_missing d s h h']
  · rw [transform_of_absent_found d s v h h']

theorem runTransforms_nil (s : TransState) : runTransforms [] s = s := rfl

theorem runTransforms_cons (c : FeatureColumn) (cs : List FeatureColumn) (s : TransState) :
    runTransforms (c :: cs) s = runTransforms cs ((transform c s).2) := rfl

theorem transform_state_mono (d : FeatureColumn) (s : TransState) (k : FKey) (v : Tensor)
    (h : lookupD k s.map = some v) : lookupD k ((transform d s).2).map = some v := by
  rcases hd : lookupD (.col d) s.map with _ | w
  · rw [transform_snd_of_absent d s hd]
    exact insertTF_mono d s k v h
  · rw [transform_of_present d s w hd]
    exact h

/-- `runTransforms` version of `transform_state_mono`: entries are only added,
never removed or replaced, across any call sequence. -/
theorem runTransforms_state_mono :
    ∀ (cs : List FeatureColumn) (s : TransState) (k : FKey) (v : Tensor),
      lookupD k s.map = some v → lookupD k (runTransforms cs s).map = some v
  | [], _, _, _, h => h
  | c :: cs, s, k, v, h => by
    rw [runTransforms_cons]
    exact runTransforms_state_mono cs ((transform c s).2) k v (transform_state_mono c s k v h)

theorem transform_ok_lookup (d : FeatureColumn) (s : TransState) (v : Tensor)
    (h : (transform d s).1 = .ok v) :
    lookupD (.col d) ((transform d s).2).map = some v := by
  rcases hd : lookupD (.col d) s.map with _ | w
  · rcases h' : lookupD (.col d) (insertTransformedFeature d s).map with _ | w
    · rw [transform_of_absent_missing d s hd h'] at h ⊢
      exact absurd h (by simp)
    · rw [transform_of_absent_found d s w hd h'] at h ⊢
      simp at h
      rw [← h]
      exact h'
  · rw [transform_of_present d s w hd] at h ⊢
    simp at h
    rw [← h]
    exact hd

/-- Invariant preservation across one `transform` call: the bases of a watched
column stay present, its insertion count stays at most one, and a positive
count still implies its entry is present. -/
theorem transform_step_invariant (C d : FeatureColumn) (s : TransState)
    (hb : C.basesPresent s.map = true)
    (hcnt : s.calls.count C ≤ 1)
    (himp : 1 ≤ s.calls.count C → containsD (.col C) s.map = true) :
    C.basesPresent ((transform d s).2).map = true ∧
    ((transform d s).2).calls.count C ≤ 1 ∧
    (1 ≤ ((transform d s).2).calls.count C →
      containsD (.col C) ((transform d s).2).map = true) := by
  rcases hd : lookupD (.col d) s.map with _ | w
  · rw [transform_snd_of_absent d s hd]
    refine ⟨basesPresent_mono C s.map _
      (fun k hk => containsD_insertTF_mono d s k hk) hb, ?_⟩
    by_cases hC : containsD (.col C) s.map = true
    · have hne : d ≠ C := by
        intro he
        subst he
        rw [containsD, hd] at hC
        simp at hC
      rw [insertTF_count_frozen C d s hC hne]
      exact ⟨hcnt, fun _ => containsD_insertTF_mono d s _ hC⟩
    · have hC' : containsD (.col C) s.map = false := by
        cases hcc : containsD (.col C) s.map
        · rfl
        · exact absurd hcc hC
      have hzero : s.calls.count C = 0 := by
        by_cases h1 : 1 ≤ s.calls.count C
        · exact absurd (himp h1) hC
        · omega
      rcases insertTF_count_absent C d s hb hC' with ⟨hc1, hc2⟩ | ⟨hc1, hc2⟩
      · rw [hc1, hzero]
        exact ⟨by omega, fun hx => absurd hx (by omega)⟩
      · rw [hc1, hzero]
        exact ⟨by omega, fun _ => hc2⟩
  · rw [transform_of_present d s w hd]
    exact ⟨hb, hcnt, himp⟩

/-- Invariant preservation across a whole sequence of `transform` calls. -/
theorem runTransforms_invariant (C : FeatureColumn) :
    ∀ (cs : List FeatureColumn) (s : TransState),
      C.basesPresent s.map = true →
      s.calls.count C ≤ 1 →
      (1 ≤ s.calls.count C → containsD (.col C) s.map = true) →
      C.basesPresent ((runTransforms cs s)).map = true ∧
      (runTransforms cs s).calls.count C ≤ 1 ∧
      (1 ≤ (runTransforms cs s).calls.count C →
        containsD (.col C) (runTransforms cs s).map = true)
  | [], s, hb, hcnt, himp => ⟨hb, hcnt, himp⟩
  | d :: cs, s, hb, hcnt, himp => by
    rw [runTransforms_cons]
    obtain ⟨h1, h2, h3⟩ := transform_step_invariant C d s hb hcnt himp
    exact runTransforms_invariant C cs ((transform d s).2) h1 h2 h3

theorem checkAux_ok_iff :
    ∀ (cols : List FeatureColumn) (seen : List String),
      checkFeatureColumnsAux seen cols = .ok () ↔
        ((cols.map FeatureColumn.key).Nodup ∧
          ∀ k ∈ cols.map FeatureColumn.key, k ∉ seen)
  | [], seen => by simp [checkFeatureColumnsAux]
  | f :: rest, seen => by
    simp only [checkFeatureColumnsAux, List.map_cons, List.nodup_cons, List.mem_cons]
    by_cases hf : f.key ∈ seen
    · rw [if_pos hf]
      constructor
      · intro h
        exact absurd h (by simp)
      · intro ⟨_, h⟩
        exact absurd hf (h f.key (Or.inl rfl))
    · rw [if_neg hf]
      rw [checkAux_ok_iff rest (f.key :: seen)]
      constructor
      · intro ⟨hn, hs⟩
        refine ⟨⟨?_, hn⟩, ?_⟩
        · intro hmem
          exact (hs f.key hmem) (List.mem_cons_self _ _)
        · intro k hk
          rcases hk with hk | hk
          · rw [hk]; exact hf
          · intro hks
            exact (hs k hk) (List.mem_cons_of_mem _ hks)
      · intro ⟨⟨hnf, hn⟩, hs⟩
        refine ⟨hn, ?_⟩
        intro k hk hks
        rcases List.mem_cons.mp hks with hks | hks
        · exact hnf (hks ▸ hk)
        · exact (hs k (Or.inr hk)) hks

/-- `check_feature_columns` succeeds exactly when the keys are pairwise
distinct. -/
theorem check_ok_iff (cols : List FeatureColumn) :
    check_feature_columns cols = .ok () ↔ (cols.map FeatureColumn.key).Nodup := by
  unfold check_feature_columns
  rw [checkAux_ok_iff]
  simp

theorem checkAux_error_at :
    ∀ (pre : List FeatureColumn) (f : FeatureColumn) (rest : List FeatureColumn)
      (seen : List String),
      (∀ k ∈ pre.map FeatureColumn.key, k ∉ seen) →
      (pre.map FeatureColumn.key).Nodup →
      (f.key ∈ pre.map FeatureColumn.key ∨ f.key ∈ seen) →
      checkFeatureColumnsAux seen (pre ++ f :: rest) =
        .error ("Duplicate feature column key found: " ++ f.key)
  | [], f, rest, seen, _, _, hf => by
    rcases hf with hf | hf
    · simp at hf
    · simp only [List.nil_append, checkFeatureColumnsAux]
      rw [if_pos hf]
  | g :: pre, f, rest, seen, hdisj, hnod, hf => by
    have hg : g.key ∉ seen := hdisj g.key (by simp)
    simp only [List.cons_append, checkFeatureColumnsAux]
    rw [if_neg hg]
    refine checkAux_error_at pre f rest (g.key :: seen) ?_ ?_ ?_
    · intro k hk
      intro hks
      rcases List.mem_cons.mp hks with hks | hks
      · simp only [List.map_cons, List.nodup_cons] at hnod
        exact hnod.1 (hks ▸ hk)
      · exact (hdisj k (by simp [hk])) hks
    · simp only [List.map_cons, List.nodup_cons] at hnod
      exact hnod.2
    · rcases hf with hf | hf
      · rw [List.map_cons] at hf
        rcases List.mem_cons.mp hf with hf | hf
        · exact Or.inr (by simp [hf])
        · exact Or.inl hf
      · exact Or.inr (List.mem_cons_of_mem _ hf)

/-- The duplicate-key error names the key of the first second-occurrence, in
caller-given order. -/
theorem check_error_at (pre : List FeatureColumn) (f : FeatureColumn)
    (rest : List FeatureColumn)
    (hnod : (pre.map FeatureColumn.key).Nodup)
    (hf : f.key ∈ pre.map FeatureColumn.key) :
    check_feature_columns (pre ++ f :: rest) =
      .error ("Duplicate feature column key found: " ++ f.key) := by
  unfold check_feature_columns
  exact checkAux_error_at pre f rest [] (by simp) hnod (Or.inl hf)

theorem check_error_of_dup (cols : List FeatureColumn)
    (h : ¬(cols.map FeatureColumn.key).Nodup) :
    ∃ e, check_feature_columns cols = .error e := by
  rcases hc : check_feature_columns cols with e | u
  · exact ⟨e, rfl⟩
  · cases u
    exact absurd ((check_ok_iff cols).mp hc) h

theorem containsD_transform_mono (d : FeatureColumn) (s : TransState) (k : FKey)
    (h : containsD k s.map = true) : containsD k ((transform d s).2).map = true := by
  obtain ⟨v, hv⟩ := (containsD_iff_lookup k s.map).mp h
  exact (containsD_iff_lookup k _).mpr ⟨v, transform_state_mono d s k v hv⟩

/-- When a column's bases are present, `transform` succeeds. -/
theorem transform_ok_of_bases (c : FeatureColumn) (s : TransState)
    (hb : c.basesPresent s.map = true) :
    ∃ v, transform c s = (.ok v, (transform c s).2) := by
  rcases hd : lookupD (.col c) s.map with _ | w
  · have hcomp := insertTF_complete c s hb
    obtain ⟨v, hv⟩ := (containsD_iff_lookup _ _).mp hcomp
    refine ⟨v, Prod.ext ?_ rfl⟩
    rw [transform_of_absent_found c s v hd hv]
  · refine ⟨w, Prod.ext ?_ rfl⟩
    rw [transform_of_present c s w hd]

theorem to_dnn_fst (c : FeatureColumn) (t : Tensor) (wc : List String) (tr : Bool) :
    (to_dnn_input_layer c t wc tr).1 = .dense [t.batchOf, c.dnnOutputWidth] .float32 := by
  cases c <;> rfl

theorem widthSum_ofList (l : List Tensor) :
    TList.widthSum (TList.ofList l) = (l.map Tensor.featureWidth).sum := by
  induction l with
  | nil => rfl
  | cons t rest ih =>
    simp only [TList.ofList, TList.widthSum, List.map_cons, List.sum_cons, ih]

/-- When every requested column's bases are present, the input-layer loop
succeeds and produces one dense slice per column, of the column's output
width. -/
theorem inputFold_ok :
    ∀ (cs : List FeatureColumn) (s : TransState) (wc : List String) (tr : Bool),
      (∀ c ∈ cs, c.basesPresent s.map = true) →
      ∃ slices vars s',
        inputFold wc tr cs s = .ok (slices, vars, s') ∧
          List.Forall₂ (fun sl c => ∃ bdim,
            sl = Tensor.dense [bdim, FeatureColumn.dnnOutputWidth c] .float32) slices cs
  | [], s, wc, tr, _ => ⟨[], [], s, rfl, List.Forall₂.nil⟩
  | c :: rest, s, wc, tr, hb => by
    obtain ⟨v, hv⟩ := transform_ok_of_bases c s (hb c (by simp))
    have hrest : ∀ c' ∈ rest, c'.basesPresent ((transform c s).2).map = true := by
      intro c' hc'
      exact basesPresent_mono c' s.map _
        (fun k hk => containsD_transform_mono c s k hk) (hb c' (by simp [hc']))
    obtain ⟨slices, vars, s', hfold, hfa⟩ := inputFold_ok rest ((transform c s).2) wc tr hrest
    refine ⟨(to_dnn_input_layer c v wc tr).1 :: slices,
      (to_dnn_input_layer c v wc tr).2 ++ vars, s', ?_, ?_⟩
    · simp only [inputFold]
      rw [hv]
      simp only [hfold]
    · exact List.Forall₂.cons ⟨v.batchOf, by rw [to_dnn_fst]⟩ hfa

/-- When every requested column's bases are present, the weighted-sum loop
succeeds, produces one contribution per column, and associates every column
with its weight variable. -/
theorem wsFold_ok :
    ∀ (cs : List FeatureColumn) (s : TransState) (numOutputs : Nat) (wc : List String)
      (tr : Bool),
      (∀ c ∈ cs, c.basesPresent s.map = true) →
      ∃ preds s',
        wsFold numOutputs wc tr cs s =
          .ok (preds, cs.map (fun c => (c, linearWeightVar c numOutputs wc tr)), s') ∧
          List.Forall₂ (fun p c => ∃ t,
            p = Tensor.matmulW t (linearWeightVar c numOutputs wc tr)) preds cs
  | [], s, numOutputs, wc, tr, _ => ⟨[], s, rfl, List.Forall₂.nil⟩
  | c :: rest, s, numOutputs, wc, tr, hb => by
    obtain ⟨v, hv⟩ := transform_ok_of_bases c s (hb c (by simp))
    have hrest : ∀ c' ∈ rest, c'.basesPresent ((transform c s).2).map = true := by
      intro c' hc'
      exact basesPresent_mono c' s.map _
        (fun k hk => containsD_transform_mono c s k hk) (hb c' (by simp [hc']))
    obtain ⟨preds, s', hfold, hfa⟩ := wsFold_ok rest ((transform c s).2) numOutputs wc tr hrest
    refine ⟨Tensor.matmulW v (linearWeightVar c numOutputs wc tr) :: preds, s', ?_, ?_⟩
    · simp only [wsFold]
      rw [hv]
      simp only [hfold, to_weighted_sum, List.map_cons]
    · exact List.Forall₂.cons ⟨v, rfl⟩ hfa

theorem sorted_keyLE_keyLT (l : List FeatureColumn) (hs : List.Sorted keyLE l)
    (hn : (l.map FeatureColumn.key).Nodup) : List.Sorted keyLT l := by
  have hpw : l.Pairwise (fun a b => a.key ≠ b.key) := List.pairwise_map.mp hn
  exact (hs.and hpw).imp (fun h => lt_of_le_of_ne h.1 h.2)

theorem sortedColumns_sorted (cols : List FeatureColumn) :
    List.Sorted keyLE (sortedColumns cols) :=
  List.sorted_insertionSort keyLE cols.dedup

theorem sortedColumns_perm_dedup (cols : List FeatureColumn) :
    (sortedColumns cols).Perm cols.dedup :=
  List.perm_insertionSort keyLE cols.dedup

/-- With pairwise-distinct keys the deduplication is the identity and the
sorted enumeration is a permutation of the requested columns. -/
theorem sortedColumns_perm (cols : List FeatureColumn)
    (hk : (cols.map FeatureColumn.key).Nodup) : (sortedColumns cols).Perm cols := by
  have hnod : cols.Nodup := List.Nodup.of_map _ hk
  have : cols.dedup = cols := List.dedup_eq_self.mpr hnod
  calc (sortedColumns cols).Perm cols.dedup := sortedColumns_perm_dedup cols
    _ = cols := this

/-- Key-sorting the distinct columns does not depend on the order the columns
were supplied in. -/
theorem sortedColumns_perm_eq (cols cols₂ : List FeatureColumn)
    (hk : (cols.map FeatureColumn.key).Nodup) (hp : cols₂.Perm cols) :
    sortedColumns cols₂ = sortedColumns cols := by
  have hk₂ : (cols₂.map FeatureColumn.key).Nodup := ((hp.map _).symm).nodup hk
  have h₁ : (sortedColumns cols₂).Perm (sortedColumns cols) :=
    ((sortedColumns_perm cols₂ hk₂).trans hp).trans (sortedColumns_perm cols hk).symm
  have hs₁ : List.Sorted keyLT (sortedColumns cols₂) :=
    sorted_keyLE_keyLT _ (sortedColumns_sorted cols₂)
      ((((sortedColumns_perm cols₂ hk₂).map FeatureColumn.key).symm).nodup hk₂)
  have hs₂ : List.Sorted keyLT (sortedColumns cols) :=
    sorted_keyLE_keyLT _ (sortedColumns_sorted cols)
      ((((sortedColumns_perm cols hk).map FeatureColumn.key).symm).nodup hk)
  exact List.eq_of_perm_of_sorted h₁ hs₁ hs₂

theorem forall₂_map_eq (f : Tensor → Nat) (g : FeatureColumn → Nat) :
    ∀ {l₁ : List Tensor} {l₂ : List FeatureColumn},
      List.Forall₂ (fun a b => f a = g b) l₁ l₂ → l₁.map f = l₂.map g := by
  intro l₁ l₂ h
  induction h with
  | nil => rfl
  | cons h _ ih => simp only [List.map_cons, h, ih]

/-- C1 (amended: the early return happens only when the column itself — not
merely its string-keyed raw equivalent — is a key of the mapping): for every
feature column whose entry is already in the shared columns-to-tensors
mapping, `_Transformer.transform` returns exactly the stored value and leaves
the transformer's state untouched — no entry added, removed or modified, and
`insert_transformed_feature` is not invoked. -/
theorem C1_transform_hit_frame (c : FeatureColumn) (s : TransState) (v : Tensor)
    (h : lookupD (.col c) s.map = some v) :
    transform c s = (.ok v, s) :=
  transform_of_present c s v h

theorem C1_transform_hit_frame_witness :
    lookupD (.col (.sparseHashed "q" 10))
      ((⟨[(.col (.sparseHashed "q" 10), Tensor.hashOp (.sparseT [4] .strType) 10)],
        []⟩ : TransState)).map = some (.hashOp (.sparseT [4] .strType) 10) ∧
    transform (.sparseHashed "q" 10)
        ⟨[(.col (.sparseHashed "q" 10), Tensor.hashOp (.sparseT [4] .strType) 10)], []⟩ =
      (.ok (.hashOp (.sparseT [4] .strType) 10),
        ⟨[(.col (.sparseHashed "q" 10), Tensor.hashOp (.sparseT [4] .strType) 10)], []⟩) :=
  ⟨by decide, C1_transform_hit_frame _ _ _ (by decide)⟩

/-- C1 counterexample: with only the string-keyed raw equivalent "age" in the
mapping (and not the real-valued column itself), `transform` does invoke the
column's `insert_transformed_feature` and does extend the mapping, so the
claim's parenthetical "or its string-keyed raw equivalent" fails on the code:
the membership test at line 355 checks the column object only. -/
theorem C1_transform_hit_frame_counterexample :
    containsD (.str "age")
      ((⟨[(.str "age", Tensor.dense [2, 1] .float32)], []⟩ : TransState)).map = true ∧
    (transform (.realValued "age" 1 .float32)
        ⟨[(.str "age", Tensor.dense [2, 1] .float32)], []⟩).2.calls =
      [.realValued "age" 1 .float32] ∧
    ¬((transform (.realValued "age" 1 .float32)
        ⟨[(.str "age", Tensor.dense [2, 1] .float32)], []⟩).2 =
      ⟨[(.str "age", Tensor.dense [2, 1] .float32)], []⟩) := by
  decide

/-- C2 (amended: provided every raw base feature the column transitively
depends on is present in the transformer's initial mapping): across any
sequence of `transform` calls on the same fresh `_Transformer` — including
resolution of the column as a dependency of a crossed column — the column's
`insert_transformed_feature` is invoked at most once, and once a `transform`
of the column has returned a tensor, every later `transform` of it (after any
further calls) returns the identical stored object and leaves the state
unchanged. -/
theorem C2_transform_computes_once (C : FeatureColumn) (σ : Dict)
    (cs : List FeatureColumn) (hb : C.basesPresent σ = true) :
    (runTransforms cs ⟨σ, []⟩).calls.count C ≤ 1 ∧
    (∀ v, (transform C (runTransforms cs ⟨σ, []⟩)).1 = .ok v →
      ∀ cs₂,
        transform C (runTransforms cs₂ ((transform C (runTransforms cs ⟨σ, []⟩)).2)) =
          (.ok v, runTransforms cs₂ ((transform C (runTransforms cs ⟨σ, []⟩)).2))) := by
  constructor
  · have h := runTransforms_invariant C cs ⟨σ, []⟩ hb (by simp) (by simp)
    exact h.2.1
  · intro v hv cs₂
    have hl : lookupD (.col C) ((transform C (runTransforms cs ⟨σ, []⟩)).2).map = some v :=
      transform_ok_lookup C _ v hv
    have hl₂ := runTransforms_state_mono cs₂ _ _ v hl
    exact transform_of_present C _ v hl₂

theorem C2_transform_computes_once_witness :
    (FeatureColumn.bucketized (.realValued "age" 1 .float32) [18, 21, 30]).basesPresent
      [(.str "query_word", Tensor.sparseT [4] .strType),
        (.str "age", Tensor.dense [4, 1] .float32)] = true ∧
    ((runTransforms
        [.crossed (.cons (.sparseHashed "query_word" 100)
            (.cons (.bucketized (.realValued "age" 1 .float32) [18, 21, 30]) .nil)) 1000,
          .sparseHashed "query_word" 100,
          .bucketized (.realValued "age" 1 .float32) [18, 21, 30],
          .bucketized (.realValued "age" 1 .float32) [18, 21, 30]]
        ⟨[(.str "query_word", Tensor.sparseT [4] .strType),
          (.str "age", Tensor.dense [4, 1] .float32)], []⟩).calls.count
      (.bucketized (.realValued "age" 1 .float32) [18, 21, 30]) ≤ 1) :=
  ⟨by decide,
    (C2_transform_computes_once
      (.bucketized (.realValued "age" 1 .float32) [18, 21, 30])
      [(.str "query_word", Tensor.sparseT [4] .strType),
        (.str "age", Tensor.dense [4, 1] .float32)]
      [.crossed (.cons (.sparseHashed "query_word" 100)
          (.cons (.bucketized (.realValued "age" 1 .float32) [18, 21, 30]) .nil)) 1000,
        .sparseHashed "query_word" 100,
        .bucketized (.realValued "age" 1 .float32) [18, 21, 30],
        .bucketized (.realValued "age" 1 .float32) [18, 21, 30]]
      (by decide)).1⟩

/-- C2 counterexample: when a required base feature is missing, a failed
resolution leaves no entry behind, so transforming the same column twice
invokes its `insert_transformed_feature` twice — the claim as stated (with no
proviso on the mapping) is false on the code. -/
theorem C2_transform_computes_once_counterexample :
    (runTransforms [.realValued "x" 1 .int32, .realValued "x" 1 .int32]
      ⟨[], []⟩).calls.count (.realValued "x" 1 .int32) = 2 := by
  decide

/-- C3: for a column not already in the mapping, `transform` raises the
"not supported" `ValueError` exactly when, after delegating to the column's
`insert_transformed_feature`, the mapping still has no entry for the column;
when an entry exists after delegation, `transform` returns it.  In either case
the resulting state is the delegation's state. -/
theorem C3_transform_unsupported_guard (c : FeatureColumn) (s : TransState)
    (h : containsD (.col c) s.map = false) :
    ((transform c s).1 = .error ("Column " ++ c.name ++ " is not supported.") ↔
      lookupD (.col c) (insertTransformedFeature c s).map = none) ∧
    (∀ v, lookupD (.col c) (insertTransformedFeature c s).map = some v →
      (transform c s).1 = .ok v) ∧
    (transform c s).2 = insertTransformedFeature c s := by
  have hd : lookupD (.col c) s.map = none := by
    rcases hl : lookupD (.col c) s.map with _ | w
    · rfl
    · rw [containsD, hl] at h
      simp at h
  refine ⟨?_, ?_, transform_snd_of_absent c s hd⟩
  · rcases h' : lookupD (.col c) (insertTransformedFeature c s).map with _ | w
    · rw [transform_of_absent_missing c s hd h']
      simp
    · rw [transform_of_absent_found c s w hd h']
      simp
  · intro v hv
    rw [transform_of_absent_found c s v hd hv]

theorem C3_transform_unsupported_guard_witness :
    containsD (.col (.realValued "nope" 1 .float32)) (([] : Dict)) = false ∧
    ((transform (.realValued "nope" 1 .float32) ⟨[], []⟩).1 =
        .error ("Column " ++ (FeatureColumn.realValued "nope" 1 .float32).name ++
          " is not supported.") ↔
      lookupD (.col (.realValued "nope" 1 .float32))
        (insertTransformedFeature (.realValued "nope" 1 .float32) ⟨[], []⟩).map = none) :=
  ⟨by decide,
    (C3_transform_unsupported_guard (.realValued "nope" 1 .float32) ⟨[], []⟩ (by decide)).1⟩

/-- C9: once a key is present in the columns-to-tensors mapping, any further
sequence of `transform` calls keeps it bound to its first value — entries are
only ever added, never replaced or removed. -/
theorem C9_entries_never_overwritten (s : TransState) (cs : List FeatureColumn)
    (k : FKey) (v : Tensor) (h : lookupD k s.map = some v) :
    lookupD k (runTransforms cs s).map = some v :=
  runTransforms_state_mono cs s k v h

theorem C9_entries_never_overwritten_witness :
    lookupD (.str "age")
      ((⟨[(.str "age", Tensor.dense [4, 1] .float32)], []⟩ : TransState)).map =
        some (.dense [4, 1] .float32) ∧
    lookupD (.str "age")
      (runTransforms
        [.bucketized (.realValued "age" 1 .float32) [18], .realValued "age" 1 .float32]
        ⟨[(.str "age", Tensor.dense [4, 1] .float32)], []⟩).map =
      some (.dense [4, 1] .float32) :=
  ⟨by decide,
    C9_entries_never_overwritten ⟨[(.str "age", Tensor.dense [4, 1] .float32)], []⟩
      [.bucketized (.realValued "age" 1 .float32) [18], .realValued "age" 1 .float32]
      (.str "age") (.dense [4, 1] .float32) (by decide)⟩

/-- C4: `check_feature_columns` succeeds exactly on iterables with pairwise
distinct keys; on an iterable with a repeated key it raises the duplicate-key
`ValueError` at the second occurrence (in caller-given order), naming that
key. -/
theorem C4_check_feature_columns_spec :
    (∀ cols : List FeatureColumn,
      check_feature_columns cols = .ok () ↔ (cols.map FeatureColumn.key).Nodup) ∧
    (∀ (pre : List FeatureColumn) (f : FeatureColumn) (rest : List FeatureColumn),
      (pre.map FeatureColumn.key).Nodup →
      f.key ∈ pre.map FeatureColumn.key →
      check_feature_columns (pre ++ f :: rest) =
        .error ("Duplicate feature column key found: " ++ f.key)) :=
  ⟨check_ok_iff, check_error_at⟩

theorem C4_check_feature_columns_spec_witness :
    check_feature_columns [.realValued "a" 1 .float32, .sparseHashed "b" 5] = .ok () ∧
    check_feature_columns
        ([.realValued "a" 1 .float32] ++ (.realValued "a" 2 .int32) :: [.sparseHashed "b" 5]) =
      .error ("Duplicate feature column key found: " ++
        (FeatureColumn.realValued "a" 2 .int32).key) :=
  ⟨(C4_check_feature_columns_spec.1 [.realValued "a" 1 .float32, .sparseHashed "b" 5]).mpr
      (by decide),
    C4_check_feature_columns_spec.2 [.realValued "a" 1 .float32] (.realValued "a" 2 .int32)
      [.sparseHashed "b" 5] (by decide) (by decide)⟩

/-- C10: when the very same column object occurs more than once in the
feature-columns iterable, both builders propagate the duplicate-key
`ValueError` of the up-front validation — no transformation or rendering
happens, even though the later `set()` would have deduplicated the columns. -/
theorem C10_builders_raise_on_duplicate_object (σ : Dict) (cols : List FeatureColumn)
    (c : FeatureColumn) (wc : List String) (tr : Bool) (numOutputs : Nat)
    (h : 2 ≤ cols.count c) :
    ∃ e, check_feature_columns cols = .error e ∧
      input_from_feature_columns σ cols wc tr = .error e ∧
      weighted_sum_from_feature_columns σ cols numOutputs wc tr = .error e := by
  have hnodup : ¬cols.Nodup := by
    intro hn
    have := List.nodup_iff_count_le_one.mp hn c
    omega
  have hkeys : ¬(cols.map FeatureColumn.key).Nodup := by
    intro hk
    exact hnodup (List.Nodup.of_map _ hk)
  obtain ⟨e, he⟩ := check_error_of_dup cols hkeys
  refine ⟨e, he, ?_, ?_⟩
  · simp only [input_from_feature_columns]
    rw [he]
  · simp only [weighted_sum_from_feature_columns]
    rw [he]

theorem C10_builders_raise_on_duplicate_object_witness :
    2 ≤ [FeatureColumn.realValued "age" 1 .float32,
          FeatureColumn.realValued "age" 1 .float32].count
        (FeatureColumn.realValued "age" 1 .float32) ∧
    ∃ e, check_feature_columns
        [FeatureColumn.realValued "age" 1 .float32,
          FeatureColumn.realValued "age" 1 .float32] = .error e ∧
      input_from_feature_columns [(.str "age", Tensor.dense [4, 1] .float32)]
        [FeatureColumn.realValued "age" 1 .float32,
          FeatureColumn.realValued "age" 1 .float32] [] true = .error e ∧
      weighted_sum_from_feature_columns [(.str "age", Tensor.dense [4, 1] .float32)]
        [FeatureColumn.realValued "age" 1 .float32,
          FeatureColumn.realValued "age" 1 .float32] 1 [] true = .error e :=
  ⟨by decide,
    C10_builders_raise_on_duplicate_object [(.str "age", Tensor.dense [4, 1] .float32)]
      [FeatureColumn.realValued "age" 1 .float32, FeatureColumn.realValued "age" 1 .float32]
      (FeatureColumn.realValued "age" 1 .float32) [] true 1 (by decide)⟩

/-- C5: with unique keys, `input_from_feature_columns` processes the distinct
columns in ascending key order (independent of the order the columns were
supplied in) and returns the axis-1 concatenation of the per-column dense
slices in that order, whose feature-axis width is the sum of the columns'
individual output widths. -/
theorem C5_input_layer_spec (σ : Dict) (cols : List FeatureColumn) (wc : List String)
    (tr : Bool)
    (hk : (cols.map FeatureColumn.key).Nodup)
    (hb : ∀ c ∈ cols, c.basesPresent σ = true) :
    ∃ slices vars,
      input_from_feature_columns σ cols wc tr =
        .ok (.concatD1 (TList.ofList slices), vars) ∧
      List.Forall₂ (fun sl c => Tensor.featureWidth sl = FeatureColumn.dnnOutputWidth c)
        slices (sortedColumns cols) ∧
      List.Sorted keyLE (sortedColumns cols) ∧
      (sortedColumns cols).Perm cols ∧
      Tensor.featureWidth (.concatD1 (TList.ofList slices)) =
        (cols.map FeatureColumn.dnnOutputWidth).sum ∧
      (∀ cols₂, cols₂.Perm cols →
        input_from_feature_columns σ cols₂ wc tr =
          input_from_feature_columns σ cols wc tr) := by
  have hcheck : check_feature_columns cols = .ok () := (check_ok_iff cols).mpr hk
  have hperm := sortedColumns_perm cols hk
  have hbs : ∀ c ∈ sortedColumns cols,
      c.basesPresent ((⟨σ, []⟩ : TransState)).map = true := by
    intro c hc
    exact hb c (hperm.mem_iff.mp hc)
  obtain ⟨slices, vars, s', hfold, hfa⟩ :=
    inputFold_ok (sortedColumns cols) ⟨σ, []⟩ (augmentCollections wc) tr hbs
  have hfa' : List.Forall₂
      (fun sl c => Tensor.featureWidth sl = FeatureColumn.dnnOutputWidth c)
      slices (sortedColumns cols) := by
    refine hfa.imp (fun a b hab => ?_)
    obtain ⟨bd, hbd⟩ := hab
    rw [hbd]
    rfl
  refine ⟨slices, vars, ?_, hfa', sortedColumns_sorted cols, hperm, ?_, ?_⟩
  · simp only [input_from_feature_columns]
    rw [hcheck, hfold]
  · show TList.widthSum (TList.ofList slices) = _
    rw [widthSum_ofList, forall₂_map_eq _ _ hfa']
    exact (hperm.map FeatureColumn.dnnOutputWidth).sum_eq
  · intro cols₂ hp
    have hk₂ : (cols₂.map FeatureColumn.key).Nodup := ((hp.map _).symm).nodup hk
    have heq := sortedColumns_perm_eq cols cols₂ hk hp
    have hcheck₂ : check_feature_columns cols₂ = .ok () := (check_ok_iff cols₂).mpr hk₂
    simp only [input_from_feature_columns]
    rw [hcheck, hcheck₂, heq]

theorem C5_input_layer_spec_witness :
    (([FeatureColumn.bucketized (.realValued "age" 1 .float32) [18, 21, 30],
        .sparseHashed "query_word" 100].map FeatureColumn.key).Nodup ∧
      (∀ c ∈ [FeatureColumn.bucketized (.realValued "age" 1 .float32) [18, 21, 30],
          FeatureColumn.sparseHashed "query_word" 100],
        c.basesPresent [(.str "query_word", Tensor.sparseT [4] .strType),
          (.str "age", Tensor.dense [4, 1] .float32)] = true)) ∧
    ∃ slices vars,
      input_from_feature_columns
          [(.str "query_word", Tensor.sparseT [4] .strType),
            (.str "age", Tensor.dense [4, 1] .float32)]
          [.bucketized (.realValued "age" 1 .float32) [18, 21, 30],
            .sparseHashed "query_word" 100] [] true =
        .ok (.concatD1 (TList.ofList slices), vars) ∧
      List.Forall₂ (fun sl c => Tensor.featureWidth sl = FeatureColumn.dnnOutputWidth c)
        slices (sortedColumns
          [.bucketized (.realValued "age" 1 .float32) [18, 21, 30],
            .sparseHashed "query_word" 100]) ∧
      List.Sorted keyLE (sortedColumns
        [.bucketized (.realValued "age" 1 .float32) [18, 21, 30],
          .sparseHashed "query_word" 100]) ∧
      (sortedColumns [.bucketized (.realValued "age" 1 .float32) [18, 21, 30],
          .sparseHashed "query_word" 100]).Perm
        [.bucketized (.realValued "age" 1 .float32) [18, 21, 30],
          .sparseHashed "query_word" 100] ∧
      Tensor.featureWidth (.concatD1 (TList.ofList slices)) =
        ([FeatureColumn.bucketized (.realValued "age" 1 .float32) [18, 21, 30],
            FeatureColumn.sparseHashed "query_word" 100].map
          FeatureColumn.dnnOutputWidth).sum ∧
      (∀ cols₂, cols₂.Perm [FeatureColumn.bucketized (.realValued "age" 1 .float32)
            [18, 21, 30], FeatureColumn.sparseHashed "query_word" 100] →
        input_from_feature_columns
            [(.str "query_word", Tensor.sparseT [4] .strType),
              (.str "age", Tensor.dense [4, 1] .float32)] cols₂ [] true =
          input_from_feature_columns
            [(.str "query_word", Tensor.sparseT [4] .strType),
              (.str "age", Tensor.dense [4, 1] .float32)]
            [.bucketized (.realValued "age" 1 .float32) [18, 21, 30],
              .sparseHashed "query_word" 100] [] true) :=
  ⟨⟨by decide, by decide⟩,
    C5_input_layer_spec
      [(.str "query_word", Tensor.sparseT [4] .strType),
        (.str "age", Tensor.dense [4, 1] .float32)]
      [.bucketized (.realValued "age" 1 .float32) [18, 21, 30],
        .sparseHashed "query_word" 100] [] true (by decide) (by decide)⟩

/-- C6: with unique keys and `num_outputs ≥ 1`, the weighted-sum builder
returns a triple of: the elementwise sum (`add_n`) of every column's weighted
contribution plus a bias vector of length `num_outputs`; the mapping from
every requested column to its weight variable; and that same bias variable. -/
theorem C6_weighted_sum_spec (σ : Dict) (cols : List FeatureColumn) (numOutputs : Nat)
    (wc : List String) (tr : Bool)
    (hk : (cols.map FeatureColumn.key).Nodup)
    (hn : 1 ≤ numOutputs)
    (hb : ∀ c ∈ cols, c.basesPresent σ = true) :
    ∃ preds colVars bias,
      weighted_sum_from_feature_columns σ cols numOutputs wc tr =
        .ok (.biasAdd (.addN (TList.ofList preds)) bias, colVars, bias) ∧
      bias = biasVariable numOutputs wc ∧
      bias.shape = [numOutputs] ∧
      List.Forall₂ (fun p c => ∃ t,
        p = Tensor.matmulW t (linearWeightVar c numOutputs wc tr)) preds
        (sortedColumns cols) ∧
      colVars = (sortedColumns cols).map
        (fun c => (c, linearWeightVar c numOutputs wc tr)) ∧
      (∀ c ∈ cols, (c, linearWeightVar c numOutputs wc tr) ∈ colVars) := by
  have hcheck : check_feature_columns cols = .ok () := (check_ok_iff cols).mpr hk
  have hperm := sortedColumns_perm cols hk
  have hbs : ∀ c ∈ sortedColumns cols,
      c.basesPresent ((⟨σ, []⟩ : TransState)).map = true := by
    intro c hc
    exact hb c (hperm.mem_iff.mp hc)
  obtain ⟨preds, s', hfold, hfa⟩ :=
    wsFold_ok (sortedColumns cols) ⟨σ, []⟩ numOutputs wc tr hbs
  refine ⟨preds, (sortedColumns cols).map (fun c => (c, linearWeightVar c numOutputs wc tr)),
    biasVariable numOutputs wc, ?_, rfl, rfl, hfa, rfl, ?_⟩
  · simp only [weighted_sum_from_feature_columns]
    rw [hcheck, hfold]
  · intro c hc
    exact List.mem_map_of_mem _ (hperm.mem_iff.mpr hc)

theorem C6_weighted_sum_spec_witness :
    (([FeatureColumn.realValued "age" 1 .float32,
        FeatureColumn.sparseHashed "query_word" 100].map FeatureColumn.key).Nodup ∧
      1 ≤ 2 ∧
      (∀ c ∈ [FeatureColumn.realValued "age" 1 .float32,
          FeatureColumn.sparseHashed "query_word" 100],
        c.basesPresent [(.str "query_word", Tensor.sparseT [4] .strType),
          (.str "age", Tensor.dense [4, 1] .float32)] = true)) ∧
    ∃ preds colVars bias,
      weighted_sum_from_feature_columns
          [(.str "query_word", Tensor.sparseT [4] .strType),
            (.str "age", Tensor.dense [4, 1] .float32)]
          [.realValued "age" 1 .float32, .sparseHashed "query_word" 100] 2 [] true =
        .ok (.biasAdd (.addN (TList.ofList preds)) bias, colVars, bias) ∧
      bias = biasVariable 2 [] ∧
      bias.shape = [2] ∧
      List.Forall₂ (fun p c => ∃ t, p = Tensor.matmulW t (linearWeightVar c 2 [] true))
        preds (sortedColumns
          [.realValued "age" 1 .float32, .sparseHashed "query_word" 100]) ∧
      colVars = (sortedColumns
          [.realValued "age" 1 .float32, .sparseHashed "query_word" 100]).map
        (fun c => (c, linearWeightVar c 2 [] true)) ∧
      (∀ c ∈ [FeatureColumn.realValued "age" 1 .float32,
          FeatureColumn.sparseHashed "query_word" 100],
        (c, linearWeightVar c 2 [] true) ∈ colVars) :=
  ⟨⟨by decide, by decide, by decide⟩,
    C6_weighted_sum_spec
      [(.str "query_word", Tensor.sparseT [4] .strType),
        (.str "age", Tensor.dense [4, 1] .float32)]
      [.realValued "age" 1 .float32, .sparseHashed "query_word" 100] 2 [] true
      (by decide) (by decide) (by decide)⟩

/-- C7: evaluating `weighted_sum_from_feature_columns` with `trainable=False`
shows the bias variable is still created as trainable (registered for gradient
updates) — the source builds it without forwarding the `trainable` flag, so
the `tf.Variable` default `trainable=True` applies — while the column weight
variables do honour the flag. -/
theorem C7_bias_trainable_despite_flag :
    weighted_sum_from_feature_columns [(.str "age", Tensor.dense [2, 1] .float32)]
        [.realValued "age" 1 .float32] 1 [] false =
      .ok (.biasAdd (.addN (.cons (.matmulW (.dense [2, 1] .float32)
            ⟨"age/weight", [1, 1], [], false⟩) .nil))
          ⟨"bias_weight", [1], [], true⟩,
        [(.realValued "age" 1 .float32, ⟨"age/weight", [1, 1], [], false⟩)],
        ⟨"bias_weight", [1], [], true⟩) ∧
    (biasVariable 1 []).trainable = true ∧
    (linearWeightVar (.realValued "age" 1 .float32) 1 [] false).trainable = false := by
  decide

theorem inferRVC_sparse (n : String) (t : Tensor) (h : t.isSparseTensor = true) :
    inferRealValuedColumnForTensor n t =
      .error ("SparseTensor is not supported for auto detection. Please define corresponding FeatureColumn for tensor " ++ n ++ ".") := by
  simp [inferRealValuedColumnForTensor, h]

theorem inferRVC_nonnumeric (n : String) (t : Tensor) (h : t.isSparseTensor = false)
    (h2 : (t.dtypeOf.isInteger || t.dtypeOf.isFloating) = false) :
    inferRealValuedColumnForTensor n t =
      .error ("Non integer or non floating types are not supported for auto detection. Please define corresponding FeatureColumn for tensor " ++ n ++ ".") := by
  simp [inferRealValuedColumnForTensor, h, h2]

theorem inferRVC_ok (n : String) (t : Tensor) (h : t.isSparseTensor = false)
    (h2 : (t.dtypeOf.isInteger || t.dtypeOf.isFloating) = true) :
    inferRealValuedColumnForTensor n t =
      .ok (.realValued n (t.getShapeAsList.drop 1).prod t.dtypeOf) := by
  simp [inferRealValuedColumnForTensor, h, h2]

theorem inferRVC_error_of_bad (n : String) (t : Tensor)
    (h : t.isSparseTensor = true ∨ (t.dtypeOf.isInteger || t.dtypeOf.isFloating) = false) :
    ∃ e, inferRealValuedColumnForTensor n t = .error e := by
  rcases hs : t.isSparseTensor with _ | _
  · rcases h with h | h
    · rw [hs] at h
      simp at h
    · exact ⟨_, inferRVC_nonnumeric n t hs h⟩
  · exact ⟨_, inferRVC_sparse n t hs⟩

theorem inferTableLoop_ok :
    ∀ items : List (String × Tensor),
      (∀ kv ∈ items, kv.2.isSparseTensor = false ∧
        (kv.2.dtypeOf.isInteger || kv.2.dtypeOf.isFloating) = true) →
      inferTableLoop items =
        .ok (items.map (fun kv =>
          .realValued kv.1 (kv.2.getShapeAsList.drop 1).prod kv.2.dtypeOf))
  | [], _ => rfl
  | kv :: rest, h => by
    have hkv := h kv (by simp)
    have hrest := inferTableLoop_ok rest (fun kv' hkv' => h kv' (by simp [hkv']))
    simp only [inferTableLoop]
    rw [inferRVC_ok kv.1 kv.2 hkv.1 hkv.2, hrest]
    simp

theorem inferTableLoop_error :
    ∀ (items : List (String × Tensor)) (kv : String × Tensor), kv ∈ items →
      (kv.2.isSparseTensor = true ∨
        (kv.2.dtypeOf.isInteger || kv.2.dtypeOf.isFloating) = false) →
      ∃ e, inferTableLoop items = .error e
  | [], kv, hmem, _ => by simp at hmem
  | hd :: rest, kv, hmem, hbad => by
    rcases he : inferRealValuedColumnForTensor hd.1 hd.2 with e | c
    · exact ⟨e, by simp only [inferTableLoop]; rw [he]⟩
    · rcases List.mem_cons.mp hmem with hmem | hmem
      · obtain ⟨e, he'⟩ := inferRVC_error_of_bad hd.1 hd.2 (hmem ▸ hbad)
        rw [he'] at he
        exact absurd he (by simp)
      · obtain ⟨e, he'⟩ := inferTableLoop_error rest kv hmem hbad
        refine ⟨e, ?_⟩
        simp only [inferTableLoop]
        rw [he, he']

/-- C8: `infer_real_valued_columns` rejects sparse tensors and tensors whose
element type is neither integer nor floating; on a dense numeric tensor it
yields one real-valued column per tensor whose dimension is the product of the
shape dimensions beyond the first (batch) axis, preserving the element type. -/
theorem C8_infer_real_valued_spec :
    (∀ (n : String) (t : Tensor), t.isSparseTensor = true →
      inferRealValuedColumnForTensor n t =
        .error ("SparseTensor is not supported for auto detection. Please define corresponding FeatureColumn for tensor " ++ n ++ ".")) ∧
    (∀ (n : String) (t : Tensor), t.isSparseTensor = false →
      (t.dtypeOf.isInteger || t.dtypeOf.isFloating) = false →
      inferRealValuedColumnForTensor n t =
        .error ("Non integer or non floating types are not supported for auto detection. Please define corresponding FeatureColumn for tensor " ++ n ++ ".")) ∧
    (∀ (n : String) (t : Tensor), t.isSparseTensor = false →
      (t.dtypeOf.isInteger || t.dtypeOf.isFloating) = true →
      inferRealValuedColumnForTensor n t =
        .ok (.realValued n (t.getShapeAsList.drop 1).prod t.dtypeOf)) ∧
    (∀ t : Tensor, t.isSparseTensor = false →
      (t.dtypeOf.isInteger || t.dtypeOf.isFloating) = true →
      infer_real_valued_columns (.single t) =
        .ok [.realValued "" (t.getShapeAsList.drop 1).prod t.dtypeOf]) ∧
    (∀ items : List (String × Tensor),
      (∀ kv ∈ items, kv.2.isSparseTensor = false ∧
        (kv.2.dtypeOf.isInteger || kv.2.dtypeOf.isFloating) = true) →
      infer_real_valued_columns (.table items) =
        .ok (items.map (fun kv =>
          .realValued kv.1 (kv.2.getShapeAsList.drop 1).prod kv.2.dtypeOf))) ∧
    (∀ (items : List (String × Tensor)) (kv : String × Tensor), kv ∈ items →
      (kv.2.isSparseTensor = true ∨
        (kv.2.dtypeOf.isInteger || kv.2.dtypeOf.isFloating) = false) →
      ∃ e, infer_real_valued_columns (.table items) = .error e) := by
  refine ⟨inferRVC_sparse, inferRVC_nonnumeric, inferRVC_ok, ?_, ?_, ?_⟩
  · intro t h h2
    simp only [infer_real_valued_columns]
    rw [inferRVC_ok "" t h h2]
  · intro items h
    simp only [infer_real_valued_columns]
    exact inferTableLoop_ok items h
  · intro items kv hmem hbad
    simp only [infer_real_valued_columns]
    exact inferTableLoop_error items kv hmem hbad

theorem C8_infer_real_valued_spec_witness :
    ((Tensor.dense [7, 3, 4] .int32).isSparseTensor = false ∧
      ((Tensor.dense [7, 3, 4] .int32).dtypeOf.isInteger ||
        (Tensor.dense [7, 3, 4] .int32).dtypeOf.isFloating) = true) ∧
    infer_real_valued_columns (.single (.dense [7, 3, 4] .int32)) =
      .ok [.realValued "" 12 .int32] :=
  ⟨⟨by decide, by decide⟩,
    C8_infer_real_valued_spec.2.2.2.1 (.dense [7, 3, 4] .int32) (by decide) (by decide)⟩
